import Mathlib

/-!
Completion subsystem of the line editor (`edit/completion.go`)

A shallow embedding of `src/edit/completion.go` and proofs about it.

Conventions of the embedding

* A Go `string` is its byte sequence, `List Nat` (`GoString`).  A byte is a
  natural number below 256; the decoder treats every number from `0xF5`
  on as an invalid lead byte, so no range hypothesis is needed.
* A Go `int` is a Lean `Int`; the quantities involved (cursor offsets,
  candidate counts, terminal widths) are far from the 64-bit range.  Where
  a command adds or subtracts two fields of the session (`selectCandLeft`,
  `selectCandRight`) the result is wrapped to 64 bits (`wrapInt`), since
  the fields of an arbitrary session are arbitrary `int` values.  In `next`
  and `prev` the only arithmetic is `selected + 1` and `selected - 1`,
  which differs from Go only at `math.MaxInt64` and `math.MinInt64`; the
  statements about the index they store have `selected` in `[0, n)`.  Go's
  `/` and `%` are `Int.tdiv` and `Int.tmod` (truncation towards zero).
* A slice that may be `nil` and is tested against `nil` is an `Option (List _)`.
* A function that can fault (nil dereference, index out of range, division
  by zero) returns an `Option`; `none` is the fault.
* `*Editor` is passed and returned explicitly.
-/

namespace Edit

/-! ## Strings and `unicode/utf8` -/

/-- A Go string: a sequence of bytes. -/
abbrev GoString := List Nat

/-- Bytes of an ASCII literal. -/
def ascii (s : String) : GoString := s.toList.map Char.toNat

/-- The Unicode replacement character, `utf8.RuneError`. -/
def RuneError : Nat := 0xFFFD

/-- Continuation byte test: `locb <= b && b <= hicb`. -/
def isCont (b : Nat) : Bool := 0x80 ≤ b && b ≤ 0xBF

/-- Go's `utf8.DecodeRuneInString`: the first rune of `s` and its width in
bytes.  An empty string gives `(RuneError, 0)`, an invalid or truncated
encoding gives `(RuneError, 1)`.  The masks and shifts of the library are
written with `%` and `*`:  `s0 & 0x1F` is `s0 % 32`, `x << 6 | y` with
`y < 64` is `x * 64 + y`. -/
def DecodeRuneInString : GoString → Nat × Nat
  | [] => (RuneError, 0)
  | s0 :: rest =>
    if s0 < 0x80 then (s0, 1)
    else if s0 < 0xC2 then (RuneError, 1)
    else if s0 < 0xE0 then
      -- two bytes, second in 0x80..0xBF
      match rest with
      | s1 :: _ =>
        if isCont s1 then (s0 % 32 * 64 + s1 % 64, 2) else (RuneError, 1)
      | _ => (RuneError, 1)
    else if s0 < 0xF0 then
      -- three bytes; 0xE0 needs s1 >= 0xA0, 0xED needs s1 <= 0x9F
      match rest with
      | s1 :: s2 :: _ =>
        let lo := if s0 = 0xE0 then 0xA0 else 0x80
        let hi := if s0 = 0xED then 0x9F else 0xBF
        if s1 < lo || hi < s1 then (RuneError, 1)
        else if !isCont s2 then (RuneError, 1)
        else (s0 % 16 * 4096 + s1 % 64 * 64 + s2 % 64, 3)
      | _ => (RuneError, 1)
    else if s0 < 0xF5 then
      -- four bytes; 0xF0 needs s1 >= 0x90, 0xF4 needs s1 <= 0x8F
      match rest with
      | s1 :: s2 :: s3 :: _ =>
        let lo := if s0 = 0xF0 then 0x90 else 0x80
        let hi := if s0 = 0xF4 then 0x8F else 0xBF
        if s1 < lo || hi < s1 then (RuneError, 1)
        else if !isCont s2 then (RuneError, 1)
        else if !isCont s3 then (RuneError, 1)
        else (s0 % 8 * 262144 + s1 % 64 * 4096 + s2 % 64 * 64 + s3 % 64, 4)
      | _ => (RuneError, 1)
    else (RuneError, 1)

/-- The loop of `commonPrefix`: `for i, r := range s` resumed at byte
offset `i`.  `range` over a string decodes the rune at `i` and advances by
its width (one byte on an invalid sequence).  The first argument bounds the
number of iterations; `len(s) + 1` is always enough because every
iteration advances `i` by at least one byte. -/
def commonPrefixLoop : Nat → GoString → GoString → Nat → GoString
  | 0, s, _, _ => s
  | fuel + 1, s, t, i =>
    if s.length ≤ i then s
    else
      let rw := DecodeRuneInString (s.drop i)
      if t.length ≤ i then s.take i
      else
        let r2 := (DecodeRuneInString (t.drop i)).1
        if r2 ≠ rw.1 then s.take i
        else commonPrefixLoop fuel s t (i + rw.2)

/-- Go: `func commonPrefix(s, t string) string`. -/
def commonPrefix (s t : GoString) : GoString :=
  commonPrefixLoop (s.length + 1) s t 0

/-- Go's `utf8.ValidString`, written with the decoder: no position of the
`range` iteration yields an invalid sequence, which the decoder reports as
`(RuneError, 1)`. -/
def validFrom : Nat → GoString → Bool
  | 0, s => s.isEmpty
  | fuel + 1, s =>
    match s with
    | [] => true
    | b :: bs =>
      let rw := DecodeRuneInString (b :: bs)
      if rw = (RuneError, 1) then false else validFrom fuel ((b :: bs).drop rw.2)

/-- Go: `utf8.ValidString(s)`. -/
def ValidString (s : GoString) : Bool := validFrom s.length s

/-- The code points of a string in `range` order, Go's `[]rune(s)`. -/
def runesFrom : Nat → GoString → List Nat
  | 0, _ => []
  | fuel + 1, s =>
    match s with
    | [] => []
    | b :: bs =>
      let rw := DecodeRuneInString (b :: bs)
      rw.1 :: runesFrom fuel ((b :: bs).drop rw.2)

/-- Go: `[]rune(s)`. -/
def runes (s : GoString) : List Nat := runesFrom s.length s

/-! ## Data model -/

/-- Go: `type styled struct`. -/
structure styled where
  text : GoString
  style : GoString
  deriving DecidableEq, Repr

/-- Go: `type candidate struct`.  A `*candidate` is modelled by its value. -/
structure candidate where
  source : styled
  menu : styled
  sourceSuffix : GoString
  deriving DecidableEq, Repr

/-- Go: `type completion struct`.  `candidates` is a slice that is only
measured and indexed here, so `nil` and the empty slice coincide. -/
structure completion where
  completer : GoString
  candidates : List candidate
  selected : Int
  lines : Int
  deriving DecidableEq, Repr

/-- A syntax node, `parse.Node`: only its `End()` offset is used here; `tag`
stands for the rest of the node, which the completers inspect. -/
structure Node where
  tag : Nat
  Begin : Int
  End : Int
  deriving DecidableEq, Repr

/-- Go: `Token`; `Node` is an interface value and may be `nil`. -/
structure Token where
  Text : GoString
  Node : Option Node
  deriving DecidableEq, Repr

/-- The value of `ed.mode`: `&ed.insert`, `&ed.completion`, or another mode
of the editor. -/
inductive ModeRef where
  | insert
  | completion
  | other (k : Nat)
  deriving DecidableEq, Repr

/-- The fields of `Editor` that `completion.go` reads or writes. -/
structure Editor where
  line : GoString
  dot : Int
  tokens : List Token
  tips : List GoString
  mode : ModeRef
  completion : completion
  deriving DecidableEq, Repr

/-- An element of the global `completers` list.  The strategy returns a
slice, `nil` (`none`) meaning that the completer does not apply. -/
structure completerEntry where
  name : GoString
  completer : Node → Editor → Option (List candidate)

/-- Modelled from the spec: `Editor.insertAtDot` is defined outside
`completion.go`; §6 "an operation to insert literal text at the cursor and
leave it positioned after the inserted text". -/
def Editor.insertAtDot (ed : Editor) (text : GoString) : Editor :=
  { ed with
    line := ed.line.take ed.dot.toNat ++ text ++ ed.line.drop ed.dot.toNat
    dot := ed.dot + text.length }

/-- Modelled from the spec: `Editor.addTip` is defined outside
`completion.go`; §6 "an operation to display a transient, formatted
user-visible tip message".  The argument is the formatted message. -/
def Editor.addTip (ed : Editor) (msg : GoString) : Editor :=
  { ed with tips := ed.tips ++ [msg] }

/-! ## Session commands -/

/-- Go: `func (c *completion) prev(cycle bool)`. -/
def completion.prev (c : completion) (cycle : Bool) : completion :=
  let c1 := { c with selected := c.selected - 1 }
  if c1.selected = -1 then
    if cycle then { c1 with selected := (c1.candidates.length : Int) - 1 }
    else { c1 with selected := c1.selected + 1 }
  else c1

/-- Go: `func (c *completion) next(cycle bool)`. -/
def completion.next (c : completion) (cycle : Bool) : completion :=
  let c1 := { c with selected := c.selected + 1 }
  if c1.selected = (c1.candidates.length : Int) then
    if cycle then { c1 with selected := 0 }
    else { c1 with selected := c1.selected - 1 }
  else c1

/-- Go: `func selectCandUp(ed *Editor)`. -/
def selectCandUp (ed : Editor) : Editor :=
  { ed with completion := ed.completion.prev false }

/-- Go: `func selectCandDown(ed *Editor)`. -/
def selectCandDown (ed : Editor) : Editor :=
  { ed with completion := ed.completion.next false }

/-- Go: `math.MinInt64`, the least value of an `int`. -/
def minInt : Int := -9223372036854775808

/-- Go: `math.MaxInt64`, the greatest value of an `int`. -/
def maxInt : Int := 9223372036854775807

/-- The value Go gives to an `int` sum or difference whose mathematical
value is `x`: the representative of `x` modulo 2^64 in `[-2^63, 2^63)`. -/
def wrapInt (x : Int) : Int :=
  (x + 9223372036854775808) % 18446744073709551616 - 9223372036854775808

/-- Go: `func selectCandLeft(ed *Editor)`; `c := ed.completion.selected -
ed.completion.lines` is a 64-bit subtraction. -/
def selectCandLeft (ed : Editor) : Editor :=
  let c := wrapInt (ed.completion.selected - ed.completion.lines)
  if c ≥ 0 then { ed with completion := { ed.completion with selected := c } }
  else ed

/-- Go: `func selectCandRight(ed *Editor)`; `c := ed.completion.selected +
ed.completion.lines` is a 64-bit addition. -/
def selectCandRight (ed : Editor) : Editor :=
  let c := wrapInt (ed.completion.selected + ed.completion.lines)
  if c < (ed.completion.candidates.length : Int) then
    { ed with completion := { ed.completion with selected := c } }
  else ed

/-- Go: `func cycleCandRight(ed *Editor)`. -/
def cycleCandRight (ed : Editor) : Editor :=
  { ed with completion := ed.completion.next true }

/-- Go: `func acceptCompletion(ed *Editor)`. -/
def acceptCompletion (ed : Editor) : Editor :=
  let c := ed.completion
  let ed1 :=
    if h : 0 ≤ c.selected ∧ c.selected < (c.candidates.length : Int) then
      let accepted := (c.candidates.get ⟨c.selected.toNat, by omega⟩).source.text
      ed.insertAtDot accepted
    else ed
  { ed1 with mode := ModeRef.insert }

/-! ## Token at the cursor -/

/-- Go: `var badToken = Token{}`. -/
def badToken : Token := { Text := [], Node := none }

/-- The `for _, token := range ed.tokens` loop of `tokenAtDot`.  A token
without a node faults at `token.Node.End()`. -/
def scanTokens (dot : Int) : List Token → Option Token
  | [] => some badToken
  | token :: rest =>
    match token.Node with
    | none => none
    | some node => if dot < node.End then some token else scanTokens dot rest

/-- Go: `func tokenAtDot(ed *Editor) Token`. -/
def tokenAtDot (ed : Editor) : Option Token :=
  if ed.tokens.length = 0 ∨ ed.dot > (ed.line.length : Int) then some badToken
  else if ed.dot = (ed.line.length : Int) then ed.tokens[ed.tokens.length - 1]?
  else scanTokens ed.dot ed.tokens

/-! ## Starting completion -/

/-- The completer loop of `startCompletionInner`: the fields `completer`
and `candidates` of `c := &completion{}` after
`for _, compl := range completers { ... break }`. -/
def runCompleters (node : Node) (ed : Editor) :
    List completerEntry → GoString × Option (List candidate)
  | [] => ([], none)
  | compl :: rest =>
    match compl.completer node ed with
    | some candidates => (compl.name, some candidates)
    | none => runCompleters node ed rest

/-- The fold of `startCompletionInner`:
`pre := candidates[0].source.text; for _, cand := range candidates[1:] { pre = commonPrefix(pre, cand.source.text) }`.
It is only run on a non-empty list. -/
def foldPrefix : List candidate → GoString
  | [] => []
  | c0 :: rest => rest.foldl (fun pre cand => commonPrefix pre cand.source.text) c0.source.text

/-- Go: `func startCompletionInner(ed *Editor, completePrefix bool)`, with
the global `completers` as a parameter. -/
def startCompletionInner (completers : List completerEntry) (ed : Editor)
    (completePrefix : Bool) : Option Editor :=
  match tokenAtDot ed with
  | none => none
  | some token =>
    match token.Node with
    | none => some ed
    | some node =>
      let c := runCompleters node ed completers
      match c.2 with
      | none => some (ed.addTip (ascii "unsupported completion :("))
      | some candidates =>
        if candidates.length = 0 then
          some (ed.addTip (ascii "no candidate for " ++ c.1))
        else
          let install : Editor :=
            { ed with
              completion := { completer := c.1, candidates := candidates, selected := 0, lines := 0 }
              mode := ModeRef.completion }
          if completePrefix then
            let pre := foldPrefix candidates
            if pre ≠ [] then some (ed.insertAtDot pre) else some install
          else some install

/-- Go: `func startCompletion(ed *Editor)`. -/
def startCompletion (completers : List completerEntry) (ed : Editor) : Option Editor :=
  startCompletionInner completers ed false

/-- Go: `func completePrefixOrStartCompletion(ed *Editor)`. -/
def completePrefixOrStartCompletion (completers : List completerEntry) (ed : Editor) :
    Option Editor :=
  startCompletionInner completers ed true

/-! ## Listing the candidates -/

/-- Go: `const completionListingColMargin = 2`. -/
def completionListingColMargin : Int := 2

/-- Modelled from the spec: `CeilDiv` is defined outside `completion.go`;
§4.5 "Row count = `ceil(candidateCount / columnCount)`".  The ceiling of
`a / b` is minus the floor of `-a / b`. -/
def CeilDiv (a b : Int) : Int := -(Int.fdiv (-a) b)

/-- The functions and constants that `List` uses and that are declared
outside `completion.go`. -/
structure ListEnv where
  WcWidths : GoString → Int
  ForceWcWidth : GoString → Int → GoString
  findWindow : Int → Int → Int → Int × Int
  styleForSelected : GoString

/-- A call on the `*buffer` that `List` fills. -/
inductive bufferOp where
  | newline
  | writePadding (w : Int) (style : GoString)
  | writes (text : GoString) (style : GoString)
  deriving DecidableEq, Repr

/-- The `*buffer` returned by `List`: the width given to `newBuffer` and the
calls made on it, in order. -/
structure buffer where
  width : Int
  ops : List bufferOp
  deriving DecidableEq, Repr

/-- Go: `newBuffer(width)`. -/
def newBuffer (width : Int) : buffer := { width := width, ops := [] }

/-- The first loop of `List`: the largest `WcWidths(cand.menu.text)`,
starting from 0. -/
def listColWidth (env : ListEnv) (cands : List candidate) : Int :=
  cands.foldl
    (fun colWidth cand =>
      let width := env.WcWidths cand.menu.text
      if colWidth < width then width else colWidth)
    0

/-- The column count of `List`:
`cols := (b.width + margin) / (colWidth + margin); if cols == 0 { cols = 1 }`. -/
def listCols (width colWidth : Int) : Int :=
  let margin := completionListingColMargin
  let cols := Int.tdiv (width + margin) (colWidth + margin)
  if cols = 0 then 1 else cols

/-- The inner loop of `List`, `for j := 0; j < cols; j++`, resumed at `j`
for row `i`: the calls it makes on the buffer.  `cands[k]` with `k < 0`
faults.  The first argument bounds the number of iterations. -/
def listRow (env : ListEnv) (comp : completion) (colWidth cols lines i : Int) :
    Nat → Int → Option (List bufferOp)
  | 0, _ => some []
  | fuel + 1, j =>
    if j < cols then
      let k := j * lines + i
      if k ≥ (comp.candidates.length : Int) then some []
      else
        match comp.candidates[k.toNat]?, decide (0 ≤ k) with
        | some cand, true =>
          let style := if k = comp.selected then cand.menu.style ++ env.styleForSelected
                       else cand.menu.style
          let text := cand.menu.text
          let pad := if j > 0 then [bufferOp.writePadding completionListingColMargin []] else []
          match listRow env comp colWidth cols lines i fuel (j + 1) with
          | some rest => some (pad ++ [bufferOp.writes (env.ForceWcWidth text colWidth) style] ++ rest)
          | none => none
        | _, _ => none
    else some []

/-- The outer loop of `List`, `for i := low; i < high; i++`, resumed at `i`. -/
def listRows (env : ListEnv) (comp : completion) (colWidth cols lines low high : Int) :
    Nat → Int → Option (List bufferOp)
  | 0, _ => some []
  | fuel + 1, i =>
    if i < high then
      let nl := if i > low then [bufferOp.newline] else []
      match listRow env comp colWidth cols lines i cols.toNat 0 with
      | none => none
      | some row =>
        match listRows env comp colWidth cols lines low high fuel (i + 1) with
        | some rest => some (nl ++ row ++ rest)
        | none => none
    else some []

/-- Go: `func (comp *completion) List(width, maxHeight int) *buffer`.  The
result is the session after the call and the buffer; `none` is a fault
(`comp.selected % lines` with `lines == 0`, or `cands[k]` out of range). -/
def completion.List (env : ListEnv) (comp : completion) (width maxHeight : Int) :
    Option (completion × buffer) :=
  let b := newBuffer width
  let cands := comp.candidates
  let colWidth := listColWidth env cands
  let cols := listCols b.width colWidth
  let lines := CeilDiv cands.length cols
  let comp1 := { comp with lines := lines }
  if lines = 0 then none
  else
    let lh := env.findWindow lines (Int.tmod comp1.selected lines) maxHeight
    match listRows env comp1 colWidth cols lines lh.1 lh.2 (lh.2 - lh.1).toNat lh.1 with
    | none => none
    | some ops => some (comp1, { b with ops := ops })

/-- A redraw of the editor in completion mode: `ed.completion.List(width, maxHeight)`. -/
def listCompletion (env : ListEnv) (ed : Editor) (width maxHeight : Int) : Option Editor :=
  match ed.completion.List env width maxHeight with
  | none => none
  | some r => some { ed with completion := r.1 }


/-- A Unicode scalar value: a code point outside the surrogate range. -/
def validRune (r : Nat) : Bool := r < 0xD800 || (0xE000 ≤ r && r < 0x110000)

/-- The UTF-8 encoding of a scalar value, as `utf8.AppendRune` writes it. -/
def encodeRune (r : Nat) : GoString :=
  if r < 0x80 then [r]
  else if r < 0x800 then [0xC0 + r / 64, 0x80 + r % 64]
  else if r < 0x10000 then [0xE0 + r / 4096, 0x80 + r / 64 % 64, 0x80 + r % 64]
  else [0xF0 + r / 262144, 0x80 + r / 4096 % 64, 0x80 + r / 64 % 64, 0x80 + r % 64]

/-- The UTF-8 encoding of a sequence of scalar values. -/
def encode : List Nat → GoString
  | [] => []
  | r :: rs => encodeRune r ++ encode rs

/-- The longest common prefix of two lists of code points. -/
def lcp : List Nat → List Nat → List Nat
  | x :: xs, y :: ys => if x = y then x :: lcp xs ys else []
  | _, _ => []

/-- A candidate whose insertion text and menu text are both `text`. -/
def textCandidate (text : GoString) : candidate :=
  { source := { text := text, style := [] }, menu := { text := text, style := [] },
    sourceSuffix := [] }

/-- The string `p` is the longest common prefix of the insertion texts of
`cands`, the texts taken as sequences of code points:
it is a leading part of every text, as bytes and as code points; every
sequence of code points that starts all the texts starts `p`, and so does
every valid string that is a byte prefix of all the texts; and `p` ends on
a code point boundary (it is valid UTF-8, so no multi-byte sequence is cut). -/
def IsLongestCommonPrefix (cands : List candidate) (p : GoString) : Prop :=
  (∀ x ∈ cands, p <+: x.source.text) ∧
  (∀ x ∈ cands, runes p <+: runes x.source.text) ∧
  (∀ q : List Nat, (∀ x ∈ cands, q <+: runes x.source.text) → q <+: runes p) ∧
  (∀ b : GoString, ValidString b = true → (∀ x ∈ cands, b <+: x.source.text) → b <+: p) ∧
  ValidString p = true

/-- A completer that returns the same result for every node. -/
def constCompleter (name : GoString) (result : Option (List candidate)) : completerEntry :=
  { name := name, completer := fun _ _ => result }

/-- The zero value of `completion`. -/
def emptyCompletion : completion :=
  { completer := [], candidates := [], selected := 0, lines := 0 }

/-- The editor of the scenarios of the specification: line `echo $HOME/foo`,
cursor at the end, in insert mode, tokens `echo`, blank, `$HOME/foo`. -/
def scenarioEditor : Editor :=
  { line := ascii "echo $HOME/foo"
    dot := 14
    tokens :=
      [ { Text := ascii "echo", Node := some { tag := 0, Begin := 0, End := 4 } },
        { Text := ascii " ", Node := some { tag := 1, Begin := 4, End := 5 } },
        { Text := ascii "$HOME/foo", Node := some { tag := 2, Begin := 5, End := 14 } } ]
    tips := []
    mode := ModeRef.insert
    completion := emptyCompletion }

/-- An editor in completion mode whose session has the candidate `HOME/`
selected, the scenario of `acceptCompletion` in the specification. -/
def acceptScenario : Editor :=
  { scenarioEditor with
    line := ascii "echo $"
    dot := 6
    mode := ModeRef.completion
    completion :=
      { completer := ascii "variable"
        candidates :=
          [ { source := { text := ascii "HOME/", style := [] },
              menu := { text := ascii "$HOME", style := ascii "1" },
              sourceSuffix := ascii "x" },
            textCandidate (ascii "PATH") ]
        selected := 0
        lines := 2 } }

/-- An editor whose cursor is beyond the end of the line. -/
def staleEditor : Editor := { scenarioEditor with dot := 15 }

/-- The conditions under which `startCompletionInner` reaches
`ed.completion = *c; ed.mode = &ed.completion`: a valid token, a winning
completer with a non-empty list, and either a full trigger or an empty
folded prefix. -/
def OpensPicker (completers : List completerEntry) (ed : Editor) (completePrefix : Bool) :
    Prop :=
  ∃ tok node name cands, tokenAtDot ed = some tok ∧ tok.Node = some node ∧
    runCompleters node ed completers = (name, some cands) ∧ cands ≠ [] ∧
    (completePrefix = false ∨ foldPrefix cands = [])

/-- The bound 2^62 on the number of candidates of a session.  A
`[]*candidate` holds 8 bytes per element, so in a 64-bit address space
`len(candidates)` is below 2^60; with it `selected + lines` cannot overflow
when `selected < len(candidates)` and `lines <= len(candidates)`. -/
def maxCandidates : Int := 4611686018427387904

/-- The editor states reachable from a completion trigger that opened the
picker, on a candidate list of at most `maxCandidates` entries, by the
commands of the completion mode and by redraws with a non-negative width. -/
inductive Reachable (completers : List completerEntry) : Editor → Prop where
  | trigger (ed ed1 : Editor) (b : Bool) :
      OpensPicker completers ed b → startCompletionInner completers ed b = some ed1 →
      (ed1.completion.candidates.length : Int) ≤ maxCandidates →
      Reachable completers ed1
  | next (ed : Editor) (cycle : Bool) :
      Reachable completers ed →
      Reachable completers { ed with completion := ed.completion.next cycle }
  | prev (ed : Editor) (cycle : Bool) :
      Reachable completers ed →
      Reachable completers { ed with completion := ed.completion.prev cycle }
  | up (ed : Editor) : Reachable completers ed → Reachable completers (selectCandUp ed)
  | down (ed : Editor) : Reachable completers ed → Reachable completers (selectCandDown ed)
  | left (ed : Editor) : Reachable completers ed → Reachable completers (selectCandLeft ed)
  | right (ed : Editor) : Reachable completers ed → Reachable completers (selectCandRight ed)
  | cycleRight (ed : Editor) :
      Reachable completers ed → Reachable completers (cycleCandRight ed)
  | list (env : ListEnv) (ed ed1 : Editor) (width maxHeight : Int) :
      Reachable completers ed → 0 ≤ width → listCompletion env ed width maxHeight = some ed1 →
      Reachable completers ed1

/-- The invariant of a session: a non-empty candidate list, a selected index
inside it, and a non-negative row count. -/
def SessionInv (c : completion) : Prop :=
  c.candidates ≠ [] ∧ 0 ≤ c.selected ∧ c.selected < (c.candidates.length : Int) ∧ 0 ≤ c.lines

/-- The bounds that keep the column commands away from the 64-bit limit:
the row count is at most the number of candidates (as after `List`), and
the number of candidates is at most `maxCandidates`. -/
def SessionBound (c : completion) : Prop :=
  c.lines ≤ (c.candidates.length : Int) ∧ (c.candidates.length : Int) ≤ maxCandidates

/-- An environment for `List` with one column per byte and a window of all rows. -/
def plainEnv : ListEnv :=
  { WcWidths := fun s => (s.length : Int)
    ForceWcWidth := fun s _ => s
    findWindow := fun height _ _ => (0, height)
    styleForSelected := ascii "7" }

/-- The completers of the picker scenario: one completer, which returns
the candidates `foo` and `bar`. -/
def scenarioCompleters : List completerEntry :=
  [constCompleter (ascii "path") (some [textCandidate (ascii "foo"), textCandidate (ascii "bar")])]

/-- The scenario editor after the trigger opened the picker on `foo`, `bar`. -/
def pickerScenario : Editor :=
  { scenarioEditor with
    completion :=
      { completer := ascii "path"
        candidates := [textCandidate (ascii "foo"), textCandidate (ascii "bar")]
        selected := 0
        lines := 0 }
    mode := ModeRef.completion }

/-- The picker scenario after a redraw of width 80: 16 columns, one row. -/
def pickerListed : Editor :=
  { pickerScenario with completion := { pickerScenario.completion with lines := 1 } }

/-- One operation on the installed session: `next`, `prev`, the column
commands, `cycleCandRight`, or a redraw by `List` that did not fault. -/
inductive SessionStep : completion → completion → Prop where
  | next (c : completion) (cycle : Bool) : SessionStep c (c.next cycle)
  | prev (c : completion) (cycle : Bool) : SessionStep c (c.prev cycle)
  | left (ed : Editor) : SessionStep ed.completion (selectCandLeft ed).completion
  | right (ed : Editor) : SessionStep ed.completion (selectCandRight ed).completion
  | cycleRight (ed : Editor) : SessionStep ed.completion (cycleCandRight ed).completion
  | list (env : ListEnv) (c : completion) (width maxHeight : Int) (r : completion × buffer) :
      c.List env width maxHeight = some r → SessionStep c r.1

/-- The indices `k` at which the inner loop of `List` reads `cands[k]` in
row `i`, from column `j` on: `k := j*lines + i`, the row ends at the first
`k >= len(cands)`.  `n` is `len(cands)`. -/
def listRowReads (n cols lines i : Int) : Nat → Int → List Int
  | 0, _ => []
  | fuel + 1, j =>
    if j < cols then
      let k := j * lines + i
      if k ≥ n then []
      else k :: listRowReads n cols lines i fuel (j + 1)
    else []

/-- The indices read by the outer loop of `List`, `for i := low; i < high;
i++`, resumed at row `i`, in the order they are read. -/
def listReads (n cols lines high : Int) : Nat → Int → List Int
  | 0, _ => []
  | fuel + 1, i =>
    if i < high then
      listRowReads n cols lines i cols.toNat 0 ++ listReads n cols lines high fuel (i + 1)
    else []

/-- The assumption on `findWindow`, which is declared outside
`completion.go`: for a grid of `height >= 1` rows and a selected row in
`[0, height)`, the first row of the window is not negative (§4.5: "the
window stays within `[0, rowCount)`"). -/
def WindowLowNonneg (env : ListEnv) : Prop :=
  ∀ height selected max : Int, 1 ≤ height → 0 ≤ selected → selected < height →
    0 ≤ (env.findWindow height selected max).1

/-- The cell of candidate `k` in the words of the specification, §4.5:
"candidate at logical index `k` occupies column `k / rowCount`, row
`k % rowCount`".  The pair is (column, row). -/
def specCell (rowCount k : Int) : Int × Int := (Int.tdiv k rowCount, Int.tmod k rowCount)

/-- The index that `List` draws in column `j` of row `i`: `k := j*lines + i`. -/
def listIndex (lines j i : Int) : Int := j * lines + i

/-- A session of five candidates, for the layout with two columns and three rows. -/
def fiveCandidates : completion :=
  { completer := ascii "path"
    candidates := List.replicate 5 (textCandidate (ascii "foo"))
    selected := 1
    lines := 0 }

/-- The column count that `List` computes for a session and a width:
`cols` after `if cols == 0 { cols = 1 }`. -/
def listColsOf (env : ListEnv) (comp : completion) (width : Int) : Int :=
  listCols (newBuffer width).width (listColWidth env comp.candidates)

/-- The row count that `List` computes for a session and a width:
`lines := CeilDiv(len(cands), cols)`. -/
def listLinesOf (env : ListEnv) (comp : completion) (width : Int) : Int :=
  CeilDiv comp.candidates.length (listColsOf env comp width)

/-- The window of rows that `List` draws:
`low, high := findWindow(lines, comp.selected%lines, maxHeight)`. -/
def listWindowOf (env : ListEnv) (comp : completion) (width maxHeight : Int) : Int × Int :=
  env.findWindow (listLinesOf env comp width)
    (Int.tmod comp.selected (listLinesOf env comp width)) maxHeight

/-- The picker scenario with the last of its two candidates selected. -/
def lastSelected : completion := { pickerListed.completion with selected := 1 }

/-- A session of the picker scenario with `selected = 1` and the row count
`math.MaxInt64`, a value that no `List` call stores. -/
def overflowEditor : Editor :=
  { pickerListed with completion := { pickerListed.completion with selected := 1, lines := maxInt } }

/-- The `writes` calls among the calls made on a buffer, in order: the text
and the style of each cell drawn. -/
def written : List bufferOp → List (GoString × GoString)
  | [] => []
  | bufferOp.writes text style :: rest => (text, style) :: written rest
  | bufferOp.newline :: rest => written rest
  | bufferOp.writePadding _ _ :: rest => written rest

/-- The cell that the inner loop of `List` writes for the index `k`:
`b.writes(ForceWcWidth(cands[k].menu.text, colWidth), style)`, where the
style of the selected candidate has `styleForSelected` appended.  It is
`none` when `k` is not an index of `cands`. -/
def listCellOf (env : ListEnv) (comp : completion) (colWidth k : Int) :
    Option (GoString × GoString) :=
  (comp.candidates[k.toNat]?).map fun cand =>
    (env.ForceWcWidth cand.menu.text colWidth,
      if k = comp.selected then cand.menu.style ++ env.styleForSelected else cand.menu.style)

/-- A session of five candidates with different texts of width 2, the
second one selected. -/
def fiveDistinct : completion :=
  { completer := ascii "path"
    candidates := [textCandidate (ascii "aa"), textCandidate (ascii "bb"),
      textCandidate (ascii "cc"), textCandidate (ascii "dd"), textCandidate (ascii "ee")]
    selected := 1
    lines := 0 }

/-! ## Proofs: UTF-8 decoding -/

theorem decode_two (s0 s1 : Nat) (x : GoString) (h0 : 0xC2 ≤ s0) (h0' : s0 < 0xE0)
    (h1 : 0x80 ≤ s1) (h1' : s1 ≤ 0xBF) :
    DecodeRuneInString (s0 :: s1 :: x) = (s0 % 32 * 64 + s1 % 64, 2) := by
  have a1 : ¬ s0 < 0x80 := by omega
  have a2 : ¬ s0 < 0xC2 := by omega
  simp [DecodeRuneInString, isCont, a1, a2, h0', h1, h1']

theorem decode_three (s0 s1 s2 : Nat) (x : GoString) (h0 : 0xE0 ≤ s0) (h0' : s0 < 0xF0)
    (h1 : (if s0 = 0xE0 then 0xA0 else 0x80) ≤ s1) (h1' : s1 ≤ (if s0 = 0xED then 0x9F else 0xBF))
    (h2 : 0x80 ≤ s2) (h2' : s2 ≤ 0xBF) :
    DecodeRuneInString (s0 :: s1 :: s2 :: x) = (s0 % 16 * 4096 + s1 % 64 * 64 + s2 % 64, 3) := by
  have a1 : ¬ s0 < 0x80 := by omega
  have a2 : ¬ s0 < 0xC2 := by omega
  have a3 : ¬ s0 < 0xE0 := by omega
  have b1 : ¬ s1 < (if s0 = 0xE0 then 0xA0 else 0x80) := by omega
  have b2 : ¬ (if s0 = 0xED then 0x9F else 0xBF) < s1 := by omega
  simp [DecodeRuneInString, isCont, a1, a2, a3, h0', b1, b2, h2, h2']

theorem decode_four (s0 s1 s2 s3 : Nat) (x : GoString) (h0 : 0xF0 ≤ s0) (h0' : s0 < 0xF5)
    (h1 : (if s0 = 0xF0 then 0x90 else 0x80) ≤ s1) (h1' : s1 ≤ (if s0 = 0xF4 then 0x8F else 0xBF))
    (h2 : 0x80 ≤ s2) (h2' : s2 ≤ 0xBF) (h3 : 0x80 ≤ s3) (h3' : s3 ≤ 0xBF) :
    DecodeRuneInString (s0 :: s1 :: s2 :: s3 :: x)
      = (s0 % 8 * 262144 + s1 % 64 * 4096 + s2 % 64 * 64 + s3 % 64, 4) := by
  have a1 : ¬ s0 < 0x80 := by omega
  have a2 : ¬ s0 < 0xC2 := by omega
  have a3 : ¬ s0 < 0xE0 := by omega
  have a4 : ¬ s0 < 0xF0 := by omega
  have b1 : ¬ s1 < (if s0 = 0xF0 then 0x90 else 0x80) := by omega
  have b2 : ¬ (if s0 = 0xF4 then 0x8F else 0xBF) < s1 := by omega
  simp [DecodeRuneInString, isCont, a1, a2, a3, a4, h0', b1, b2, h2, h2', h3, h3']

theorem decode_encodeRune (r : Nat) (h : validRune r = true) (x : GoString) :
    DecodeRuneInString (encodeRune r ++ x) = (r, (encodeRune r).length) := by
  simp only [validRune, Bool.or_eq_true, Bool.and_eq_true, decide_eq_true_eq] at h
  unfold encodeRune
  by_cases h1 : r < 0x80
  · simp [h1, DecodeRuneInString]
  · by_cases h2 : r < 0x800
    · simp only [h1, h2, if_false, if_true, List.cons_append, List.nil_append]
      rw [decode_two _ _ _ (by omega) (by omega) (by omega) (by omega)]
      simp only [List.length_cons, List.length_nil, Prod.mk.injEq, and_true]
      omega
    · by_cases h3 : r < 0x10000
      · simp only [h1, h2, h3, if_false, if_true, List.cons_append, List.nil_append]
        rw [decode_three _ _ _ _ (by omega) (by omega) (by split <;> omega) (by split <;> omega)
          (by omega) (by omega)]
        simp only [List.length_cons, List.length_nil, Prod.mk.injEq, and_true]
        omega
      · simp only [h1, h2, h3, if_false, if_true, List.cons_append, List.nil_append]
        rw [decode_four _ _ _ _ _ (by omega) (by omega) (by split <;> omega) (by split <;> omega)
          (by omega) (by omega) (by omega) (by omega)]
        simp only [List.length_cons, List.length_nil, Prod.mk.injEq, and_true]
        omega

theorem encodeRune_decode (b : Nat) (bs : GoString)
    (h : DecodeRuneInString (b :: bs) ≠ (RuneError, 1)) :
    validRune (DecodeRuneInString (b :: bs)).1 = true ∧
    b :: bs = encodeRune (DecodeRuneInString (b :: bs)).1
                ++ (b :: bs).drop (DecodeRuneInString (b :: bs)).2 ∧
    (encodeRune (DecodeRuneInString (b :: bs)).1).length = (DecodeRuneInString (b :: bs)).2 := by
  by_cases c1 : b < 0x80
  · have e : DecodeRuneInString (b :: bs) = (b, 1) := by simp [DecodeRuneInString, c1]
    rw [e]
    have : b < 0xD800 := by omega
    simp [validRune, encodeRune, c1, this]
  by_cases c2 : b < 0xC2
  · exact absurd (by simp [DecodeRuneInString, c1, c2]) h
  by_cases c3 : b < 0xE0
  · cases bs with
    | nil => exact absurd (by simp [DecodeRuneInString, c1, c2, c3]) h
    | cons s1 x =>
      by_cases d : 0x80 ≤ s1 ∧ s1 ≤ 0xBF
      · rw [decode_two b s1 x (by omega) c3 d.1 d.2]
        have r1 : ¬ (b % 32 * 64 + s1 % 64 < 0x80) := by omega
        have r2 : b % 32 * 64 + s1 % 64 < 0x800 := by omega
        have r3 : b % 32 * 64 + s1 % 64 < 0xD800 := by omega
        simp only [validRune, encodeRune, r1, r2, r3, if_false, if_true, decide_True, Bool.true_or,
          List.drop_succ_cons, List.drop_zero, List.cons_append, List.nil_append,
          List.length_cons, List.length_nil, true_and, and_true, List.cons.injEq]
        omega
      · refine absurd ?_ h
        simp only [DecodeRuneInString, isCont, c1, c2, c3, if_false, if_true]
        rw [if_neg]
        simpa using d
  by_cases c4 : b < 0xF0
  · match bs with
    | [] => exact absurd (by simp [DecodeRuneInString, c1, c2, c3, c4]) h
    | [_] => exact absurd (by simp [DecodeRuneInString, c1, c2, c3, c4]) h
    | s1 :: s2 :: x =>
      by_cases d : ((if b = 0xE0 then 0xA0 else 0x80) ≤ s1 ∧ s1 ≤ (if b = 0xED then 0x9F else 0xBF))
          ∧ 0x80 ≤ s2 ∧ s2 ≤ 0xBF
      · obtain ⟨⟨d1, d2⟩, d3, d4⟩ := d
        rw [decode_three b s1 s2 x (by omega) c4 d1 d2 d3 d4]
        have k1 : 0x80 ≤ s1 ∧ s1 ≤ 0xBF := by
          constructor
          · split at d1 <;> omega
          · split at d2 <;> omega
        have k2 : b = 0xE0 → 0xA0 ≤ s1 := by intro e; simpa [e] using d1
        have k3 : b = 0xED → s1 ≤ 0x9F := by intro e; simpa [e] using d2
        have r1 : ¬ (b % 16 * 4096 + s1 % 64 * 64 + s2 % 64 < 0x80) := by omega
        have r2 : ¬ (b % 16 * 4096 + s1 % 64 * 64 + s2 % 64 < 0x800) := by omega
        have r3 : b % 16 * 4096 + s1 % 64 * 64 + s2 % 64 < 0x10000 := by omega
        have r4 : b % 16 * 4096 + s1 % 64 * 64 + s2 % 64 < 0xD800
            ∨ (0xE000 ≤ b % 16 * 4096 + s1 % 64 * 64 + s2 % 64
                ∧ b % 16 * 4096 + s1 % 64 * 64 + s2 % 64 < 0x110000) := by omega
        refine ⟨by simpa [validRune] using r4, ?_, ?_⟩
        · simp only [encodeRune, r1, r2, r3, if_false, if_true,
            List.drop_succ_cons, List.drop_zero, List.cons_append, List.nil_append, List.cons.injEq,
            and_true]
          omega
        · simp [encodeRune, r1, r2, r3]
      · refine absurd ?_ h
        simp only [DecodeRuneInString, isCont, c1, c2, c3, c4, if_false, if_true]
        by_cases e1 : s1 < (if b = 0xE0 then 0xA0 else 0x80)
        · simp [e1]
        by_cases e2 : (if b = 0xED then 0x9F else 0xBF) < s1
        · simp [e2]
        have e3 : ¬ (0x80 ≤ s2 ∧ s2 ≤ 0xBF) := fun e => d ⟨⟨by omega, by omega⟩, e⟩
        have e4 : (decide (0x80 ≤ s2) && decide (s2 ≤ 0xBF)) = false := by
          simpa using e3
        simp [e1, e2, e4]
  by_cases c5 : b < 0xF5
  · match bs with
    | [] => exact absurd (by simp [DecodeRuneInString, c1, c2, c3, c4, c5]) h
    | [_] => exact absurd (by simp [DecodeRuneInString, c1, c2, c3, c4, c5]) h
    | [_, _] => exact absurd (by simp [DecodeRuneInString, c1, c2, c3, c4, c5]) h
    | s1 :: s2 :: s3 :: x =>
      by_cases d : ((if b = 0xF0 then 0x90 else 0x80) ≤ s1 ∧ s1 ≤ (if b = 0xF4 then 0x8F else 0xBF))
          ∧ (0x80 ≤ s2 ∧ s2 ≤ 0xBF) ∧ (0x80 ≤ s3 ∧ s3 ≤ 0xBF)
      · obtain ⟨⟨d1, d2⟩, ⟨d3, d4⟩, d5, d6⟩ := d
        rw [decode_four b s1 s2 s3 x (by omega) c5 d1 d2 d3 d4 d5 d6]
        have k1 : 0x80 ≤ s1 ∧ s1 ≤ 0xBF := by
          constructor
          · split at d1 <;> omega
          · split at d2 <;> omega
        have k2 : b = 0xF0 → 0x90 ≤ s1 := by intro e; simpa [e] using d1
        have k3 : b = 0xF4 → s1 ≤ 0x8F := by intro e; simpa [e] using d2
        have r1 : ¬ (b % 8 * 262144 + s1 % 64 * 4096 + s2 % 64 * 64 + s3 % 64 < 0x80) := by omega
        have r2 : ¬ (b % 8 * 262144 + s1 % 64 * 4096 + s2 % 64 * 64 + s3 % 64 < 0x800) := by omega
        have r3 : ¬ (b % 8 * 262144 + s1 % 64 * 4096 + s2 % 64 * 64 + s3 % 64 < 0x10000) := by
          omega
        have r4 : b % 8 * 262144 + s1 % 64 * 4096 + s2 % 64 * 64 + s3 % 64 < 0xD800
            ∨ (0xE000 ≤ b % 8 * 262144 + s1 % 64 * 4096 + s2 % 64 * 64 + s3 % 64
                ∧ b % 8 * 262144 + s1 % 64 * 4096 + s2 % 64 * 64 + s3 % 64 < 0x110000) := by
          omega
        refine ⟨by simpa [validRune] using r4, ?_, ?_⟩
        · simp only [encodeRune, r1, r2, r3, if_false, if_true,
            List.drop_succ_cons, List.drop_zero, List.cons_append, List.nil_append, List.cons.injEq,
            and_true]
          omega
        · simp [encodeRune, r1, r2, r3]
      · refine absurd ?_ h
        simp only [DecodeRuneInString, isCont, c1, c2, c3, c4, c5, if_false, if_true]
        by_cases e1 : s1 < (if b = 0xF0 then 0x90 else 0x80)
        · simp [e1]
        by_cases e2 : (if b = 0xF4 then 0x8F else 0xBF) < s1
        · simp [e2]
        by_cases e3 : 0x80 ≤ s2 ∧ s2 ≤ 0xBF
        · have e4 : ¬ (0x80 ≤ s3 ∧ s3 ≤ 0xBF) := fun e => d ⟨⟨by omega, by omega⟩, e3, e⟩
          have e5 : (decide (0x80 ≤ s3) && decide (s3 ≤ 0xBF)) = false := by simpa using e4
          simp [e1, e2, e5]
        · have e5 : (decide (0x80 ≤ s2) && decide (s2 ≤ 0xBF)) = false := by simpa using e3
          simp [e1, e2, e5]
  · exact absurd (by simp [DecodeRuneInString, c1, c2, c3, c4, c5]) h

theorem encodeRune_length_pos (r : Nat) : 1 ≤ (encodeRune r).length := by
  unfold encodeRune
  split_ifs <;> simp

theorem encodeRune_cons (r : Nat) : ∃ b bs, encodeRune r = b :: bs := by
  have h := encodeRune_length_pos r
  cases e : encodeRune r with
  | nil => simp [e] at h
  | cons b bs => exact ⟨b, bs, rfl⟩

theorem encode_append (a b : List Nat) : encode (a ++ b) = encode a ++ encode b := by
  induction a with
  | nil => rfl
  | cons r a ih => simp [encode, ih]

/-- A valid string is the encoding of its code points, which are scalar values. -/
theorem validFrom_encode (fuel : Nat) :
    ∀ s : GoString, s.length ≤ fuel → validFrom fuel s = true →
      (∀ r ∈ runesFrom fuel s, validRune r = true) ∧ s = encode (runesFrom fuel s) := by
  induction fuel with
  | zero =>
    intro s hl _
    have : s = [] := List.length_eq_zero.mp (by omega)
    subst this
    simp [runesFrom, encode]
  | succ fuel ih =>
    intro s hl hv
    cases s with
    | nil => simp [runesFrom, encode]
    | cons b bs =>
      simp only [validFrom] at hv
      by_cases he : DecodeRuneInString (b :: bs) = (RuneError, 1)
      · simp [he] at hv
      · simp only [he, if_false] at hv
        obtain ⟨v, e, l⟩ := encodeRune_decode b bs he
        have hpos := encodeRune_length_pos (DecodeRuneInString (b :: bs)).1
        have hl2 : ((b :: bs).drop (DecodeRuneInString (b :: bs)).2).length ≤ fuel := by
          simp only [List.length_drop]
          simp only [List.length_cons] at hl ⊢
          omega
        obtain ⟨iv, ie⟩ := ih _ hl2 hv
        simp only [runesFrom]
        refine ⟨?_, ?_⟩
        · intro r hr
          rcases List.mem_cons.mp hr with h | h
          · rw [h]; exact v
          · exact iv r h
        · simp only [encode]
          rw [← ie]
          exact e

theorem validString_encode (s : GoString) (h : ValidString s = true) :
    (∀ r ∈ runes s, validRune r = true) ∧ s = encode (runes s) :=
  validFrom_encode s.length s (le_refl _) h

theorem runesFrom_encode (fuel : Nat) :
    ∀ rs : List Nat, (encode rs).length ≤ fuel → (∀ r ∈ rs, validRune r = true) →
      runesFrom fuel (encode rs) = rs ∧ validFrom fuel (encode rs) = true := by
  induction fuel with
  | zero =>
    intro rs hl _
    cases rs with
    | nil => simp [encode, runesFrom, validFrom]
    | cons r rs =>
      have := encodeRune_length_pos r
      simp only [encode, List.length_append] at hl
      omega
  | succ fuel ih =>
    intro rs hl hv
    cases rs with
    | nil => simp [encode, runesFrom, validFrom]
    | cons r rs =>
      have hr : validRune r = true := hv r (List.mem_cons_self _ _)
      have hd := decode_encodeRune r hr (encode rs)
      have hpos := encodeRune_length_pos r
      obtain ⟨b, bs, hb⟩ := encodeRune_cons r
      have hdrop : (encodeRune r ++ encode rs).drop (encodeRune r).length = encode rs :=
        List.drop_left _ _
      have hl2 : (encode rs).length ≤ fuel := by
        simp only [encode, List.length_append] at hl
        omega
      obtain ⟨i1, i2⟩ := ih rs hl2 (fun x hx => hv x (List.mem_cons_of_mem _ hx))
      have hne : (r, (encodeRune r).length) ≠ (RuneError, 1) := by
        intro e
        simp only [Prod.mk.injEq] at e
        obtain ⟨e1, e2⟩ := e
        subst e1
        simp [encodeRune, RuneError] at e2
      simp only [encode]
      rw [hb] at hd hdrop hne ⊢
      simp only [List.cons_append] at hd hdrop ⊢
      simp only [runesFrom, validFrom, hd, hne, if_false]
      rw [hdrop]
      exact ⟨by rw [i1], i2⟩

theorem runes_encode (rs : List Nat) (h : ∀ r ∈ rs, validRune r = true) :
    runes (encode rs) = rs ∧ ValidString (encode rs) = true :=
  runesFrom_encode _ rs (le_refl _) h

theorem length_le_encode (a : List Nat) : a.length ≤ (encode a).length := by
  induction a with
  | nil => simp [encode]
  | cons r a ih =>
    have := encodeRune_length_pos r
    simp only [encode, List.length_append, List.length_cons]
    omega

theorem lcp_nil_left (b : List Nat) : lcp [] b = [] := by
  cases b <;> rfl

theorem lcp_nil_right (a : List Nat) : lcp a [] = [] := by
  cases a <;> rfl

/-- On encodings of scalar values the loop of `commonPrefix`, started at a
common prefix `p`, returns `p` followed by the encoding of the longest
common prefix of the remaining code points. -/
theorem commonPrefixLoop_encode :
    ∀ (a : List Nat) (fuel : Nat) (b : List Nat) (p : GoString),
      (∀ r ∈ a, validRune r = true) → (∀ r ∈ b, validRune r = true) → a.length < fuel →
      commonPrefixLoop fuel (p ++ encode a) (p ++ encode b) p.length = p ++ encode (lcp a b) := by
  intro a
  induction a with
  | nil =>
    intro fuel b p _ _ hf
    cases fuel with
    | zero => omega
    | succ f => simp [commonPrefixLoop, encode, lcp_nil_left]
  | cons r a ih =>
    intro fuel b p ha hb hf
    cases fuel with
    | zero => omega
    | succ f =>
      have hr : validRune r = true := ha r (List.mem_cons_self _ _)
      have hpos := encodeRune_length_pos r
      have hlen : ¬ (p ++ encode (r :: a)).length ≤ p.length := by
        simp only [encode, List.length_append]
        omega
      have hds : (p ++ encode (r :: a)).drop p.length = encodeRune r ++ encode a := by
        simp [encode]
      have htake : (p ++ encode (r :: a)).take p.length = p := by simp
      unfold commonPrefixLoop
      simp only [hlen, if_false, hds, decode_encodeRune r hr, htake]
      cases b with
      | nil => simp [encode, lcp_nil_right]
      | cons r2 b =>
        have hr2 : validRune r2 = true := hb r2 (List.mem_cons_self _ _)
        have hpos2 := encodeRune_length_pos r2
        have hlen2 : ¬ (p ++ encode (r2 :: b)).length ≤ p.length := by
          simp only [encode, List.length_append]
          omega
        have hdt : (p ++ encode (r2 :: b)).drop p.length = encodeRune r2 ++ encode b := by
          simp [encode]
        simp only [hlen2, if_false, hdt, decode_encodeRune r2 hr2]
        by_cases e : r2 = r
        · subst e
          have h1 : p ++ encode (r2 :: a) = (p ++ encodeRune r2) ++ encode a := by
            simp [encode]
          have h2 : p ++ encode (r2 :: b) = (p ++ encodeRune r2) ++ encode b := by
            simp [encode]
          have h3 : p.length + (encodeRune r2).length = (p ++ encodeRune r2).length := by
            simp
          simp only [ne_eq, not_true_eq_false, if_false]
          rw [h1, h2, h3, ih f b (p ++ encodeRune r2)
            (fun x hx => ha x (List.mem_cons_of_mem _ hx))
            (fun x hx => hb x (List.mem_cons_of_mem _ hx)) (by simp at hf; omega)]
          simp [lcp, encode]
        · have e' : ¬ r = r2 := fun h => e h.symm
          simp [e, e', lcp, encode]

theorem commonPrefix_encode (a b : List Nat) (ha : ∀ r ∈ a, validRune r = true)
    (hb : ∀ r ∈ b, validRune r = true) :
    commonPrefix (encode a) (encode b) = encode (lcp a b) := by
  have h := commonPrefixLoop_encode a ((encode a).length + 1) b [] ha hb
    (by have := length_le_encode a; omega)
  simpa [commonPrefix] using h

theorem lcp_prefix_left : ∀ a b : List Nat, lcp a b <+: a
  | [], b => by simp [lcp_nil_left]
  | _ :: _, [] => by simp [lcp_nil_right]
  | x :: xs, y :: ys => by
    by_cases e : x = y
    · simpa [lcp, e] using lcp_prefix_left xs ys
    · simp [lcp, e]

theorem lcp_prefix_right : ∀ a b : List Nat, lcp a b <+: b
  | [], b => by simp [lcp_nil_left]
  | _ :: _, [] => by simp [lcp_nil_right]
  | x :: xs, y :: ys => by
    by_cases e : x = y
    · subst e
      simpa [lcp] using lcp_prefix_right xs ys
    · simp [lcp, e]

theorem lcp_greatest : ∀ (q a b : List Nat), q <+: a → q <+: b → q <+: lcp a b
  | [], _, _, _, _ => List.nil_prefix
  | z :: q, [], _, h, _ => by simp at h
  | z :: q, _ :: _, [], _, h => by simp at h
  | z :: q, x :: xs, y :: ys, h1, h2 => by
    rw [List.cons_prefix_cons] at h1 h2
    obtain ⟨e1, h1⟩ := h1
    obtain ⟨e2, h2⟩ := h2
    subst e1
    subst e2
    simp only [lcp, if_true]
    rw [List.cons_prefix_cons]
    exact ⟨rfl, lcp_greatest q xs ys h1 h2⟩

theorem encode_mono {q a : List Nat} (h : q <+: a) : encode q <+: encode a := by
  obtain ⟨t, rfl⟩ := h
  rw [encode_append]
  exact List.prefix_append _ _

theorem runesFrom_encode_append (rs : List Nat) :
    ∀ (fuel : Nat) (t : GoString), (∀ r ∈ rs, validRune r = true) →
      (encode rs ++ t).length ≤ fuel → rs <+: runesFrom fuel (encode rs ++ t) := by
  induction rs with
  | nil => intro fuel t _ _; exact List.nil_prefix
  | cons r rs ih =>
    intro fuel t hv hl
    have hr : validRune r = true := hv r (List.mem_cons_self _ _)
    have hpos := encodeRune_length_pos r
    obtain ⟨b, bs, hb⟩ := encodeRune_cons r
    have hd := decode_encodeRune r hr (encode rs ++ t)
    have hdrop : (encodeRune r ++ (encode rs ++ t)).drop (encodeRune r).length = encode rs ++ t :=
      List.drop_left _ _
    cases fuel with
    | zero =>
      simp only [encode, List.length_append] at hl
      omega
    | succ f =>
      have hl2 : (encode rs ++ t).length ≤ f := by
        simp only [encode, List.length_append] at hl ⊢
        omega
      have i1 := ih f t (fun x hx => hv x (List.mem_cons_of_mem _ hx)) hl2
      simp only [encode, List.append_assoc]
      rw [hb] at hd hdrop ⊢
      simp only [List.cons_append] at hd hdrop ⊢
      simp only [runesFrom, hd]
      rw [hdrop, List.cons_prefix_cons]
      exact ⟨rfl, i1⟩

/-- A valid string that is a byte prefix of a string is a prefix of it as a
sequence of code points. -/
theorem runes_mono {b s : GoString} (hb : ValidString b = true) (h : b <+: s) :
    runes b <+: runes s := by
  obtain ⟨t, rfl⟩ := h
  obtain ⟨v, e⟩ := validString_encode b hb
  have := runesFrom_encode_append (runes b) (b ++ t).length t v (by rw [← e])
  rw [← e] at this
  exact this

/-- The fold of `commonPrefix` over valid texts, started from the encoding of
`A`, ends in the encoding of the longest list of code points that is a prefix
of `A` and of every text. -/
theorem foldl_commonPrefix_encode (cs : List candidate) :
    ∀ (A : List Nat), (∀ r ∈ A, validRune r = true) →
      (∀ x ∈ cs, ValidString x.source.text = true) →
      ∃ R : List Nat,
        cs.foldl (fun pre cand => commonPrefix pre cand.source.text) (encode A) = encode R ∧
        (∀ r ∈ R, validRune r = true) ∧ R <+: A ∧
        (∀ x ∈ cs, R <+: runes x.source.text) ∧
        (∀ q : List Nat, q <+: A → (∀ x ∈ cs, q <+: runes x.source.text) → q <+: R) := by
  induction cs with
  | nil =>
    intro A hA _
    exact ⟨A, rfl, hA, List.prefix_refl _, by simp, fun q h _ => h⟩
  | cons c cs ih =>
    intro A hA hv
    obtain ⟨vc, ec⟩ := validString_encode c.source.text (hv c (List.mem_cons_self _ _))
    have hstep : commonPrefix (encode A) c.source.text
        = encode (lcp A (runes c.source.text)) := by
      conv_lhs => rw [ec]
      exact commonPrefix_encode A _ hA vc
    have hL : ∀ r ∈ lcp A (runes c.source.text), validRune r = true :=
      fun r hr => hA r ((lcp_prefix_left _ _).subset hr)
    obtain ⟨R, h1, h2, h3, h4, h5⟩ :=
      ih (lcp A (runes c.source.text)) hL (fun x hx => hv x (List.mem_cons_of_mem _ hx))
    refine ⟨R, ?_, h2, h3.trans (lcp_prefix_left _ _), ?_, ?_⟩
    · simp only [List.foldl_cons]
      rw [hstep]
      exact h1
    · intro x hx
      rcases List.mem_cons.mp hx with e | e
      · rw [e]; exact h3.trans (lcp_prefix_right _ _)
      · exact h4 x e
    · intro q hqA hq
      exact h5 q (lcp_greatest q _ _ hqA (hq c (List.mem_cons_self _ _)))
        (fun x hx => hq x (List.mem_cons_of_mem _ hx))

/-! ## C1: the folded prefix is the longest common prefix -/

/-- C1: for every non-empty candidate list whose insertion texts are valid
UTF-8, the prefix folded by `startCompletionInner` is the longest common
prefix of the texts taken as code point sequences: it is a prefix of every
text, every common prefix of the texts is a prefix of it, and it is valid
UTF-8, so it never ends inside a multi-byte sequence.  For a one-element
list it is that candidate's full text. -/
theorem foldPrefix_longest_common (cands : List candidate) (hne : cands ≠ [])
    (hv : ∀ x ∈ cands, ValidString x.source.text = true) :
    IsLongestCommonPrefix cands (foldPrefix cands) ∧
    (∀ c, cands = [c] → foldPrefix cands = c.source.text) := by
  cases cands with
  | nil => exact absurd rfl hne
  | cons c cs =>
    refine ⟨?_, ?_⟩
    · obtain ⟨vc, ec⟩ := validString_encode c.source.text (hv c (List.mem_cons_self _ _))
      obtain ⟨R, h1, h2, h3, h4, h5⟩ := foldl_commonPrefix_encode cs (runes c.source.text) vc
        (fun x hx => hv x (List.mem_cons_of_mem _ hx))
      have hp : foldPrefix (c :: cs) = encode R := by
        simp only [foldPrefix]
        conv_lhs => rw [ec]
        exact h1
      obtain ⟨hr, hvalid⟩ := runes_encode R h2
      have hall : ∀ x ∈ c :: cs, R <+: runes x.source.text := by
        intro x hx
        rcases List.mem_cons.mp hx with e | e
        · rw [e]; exact h3
        · exact h4 x e
      rw [hp]
      refine ⟨?_, ?_, ?_, ?_, hvalid⟩
      · intro x hx
        have e := (validString_encode x.source.text (hv x hx)).2
        conv_rhs => rw [e]
        exact encode_mono (hall x hx)
      · intro x hx
        rw [hr]
        exact hall x hx
      · intro q hq
        rw [hr]
        exact h5 q (hq c (List.mem_cons_self _ _))
          (fun x hx => hq x (List.mem_cons_of_mem _ hx))
      · intro b hb hq
        have hbR : runes b <+: R :=
          h5 (runes b) (runes_mono hb (hq c (List.mem_cons_self _ _)))
            (fun x hx => runes_mono hb (hq x (List.mem_cons_of_mem _ hx)))
        have e := (validString_encode b hb).2
        conv_lhs => rw [e]
        exact encode_mono hbR
    · intro c0 h
      rw [h]
      rfl

/-- C1 at the candidates "é" and "è", which share their first byte: the
folded prefix is empty. -/
theorem foldPrefix_longest_common_witness :
    foldPrefix [textCandidate [0xC3, 0xA9], textCandidate [0xC3, 0xA8]] = [] ∧
    (IsLongestCommonPrefix [textCandidate [0xC3, 0xA9], textCandidate [0xC3, 0xA8]]
        (foldPrefix [textCandidate [0xC3, 0xA9], textCandidate [0xC3, 0xA8]]) ∧
      (∀ c, [textCandidate [0xC3, 0xA9], textCandidate [0xC3, 0xA8]] = [c] →
        foldPrefix [textCandidate [0xC3, 0xA9], textCandidate [0xC3, 0xA8]] = c.source.text)) :=
  ⟨by decide,
   foldPrefix_longest_common
     [textCandidate [0xC3, 0xA9], textCandidate [0xC3, 0xA8]] (by simp) (by decide)⟩

/-! ## Starting completion: the cases of `startCompletionInner` -/

theorem startCompletionInner_of_token (completers : List completerEntry) (ed : Editor)
    (b : Bool) (tok : Token) (node : Node) (name : GoString) (r : Option (List candidate))
    (htok : tokenAtDot ed = some tok) (hnode : tok.Node = some node)
    (hrun : runCompleters node ed completers = (name, r)) :
    startCompletionInner completers ed b =
      match r with
      | none => some (ed.addTip (ascii "unsupported completion :("))
      | some candidates =>
        if candidates.length = 0 then some (ed.addTip (ascii "no candidate for " ++ name))
        else if b = true ∧ foldPrefix candidates ≠ [] then
          some (ed.insertAtDot (foldPrefix candidates))
        else
          some { ed with
            completion := { completer := name, candidates := candidates, selected := 0, lines := 0 }
            mode := ModeRef.completion } := by
  simp only [startCompletionInner, htok, hnode, hrun]
  cases r with
  | none => rfl
  | some candidates =>
    by_cases h0 : candidates.length = 0
    · simp [h0]
    · cases b <;> by_cases hp : foldPrefix candidates = [] <;> simp [h0, hp]

theorem runCompleters_append (node : Node) (ed : Editor) (pre : List completerEntry)
    (rest : List completerEntry) (hpre : ∀ c ∈ pre, c.completer node ed = none) :
    runCompleters node ed (pre ++ rest) = runCompleters node ed rest := by
  induction pre with
  | nil => rfl
  | cons c pre ih =>
    have hc : c.completer node ed = none := hpre c (List.mem_cons_self _ _)
    simp only [List.cons_append, runCompleters, hc]
    exact ih (fun x hx => hpre x (List.mem_cons_of_mem _ hx))

/-! ## C2: the prefix fast path -/

/-- C2: with a valid token at the cursor, `completePrefix = true`, and a
winning completer whose non-empty candidate list has a non-empty folded
common prefix, the call returns, the new line is the old line with exactly
that prefix inserted at the cursor, the cursor is after it, and the picker
does not open: `mode` and `completion` (and the tips) are as before. -/
theorem startCompletionInner_prefix_inserted (completers : List completerEntry) (ed : Editor)
    (tok : Token) (node : Node) (name : GoString) (cands : List candidate)
    (htok : tokenAtDot ed = some tok) (hnode : tok.Node = some node)
    (hrun : runCompleters node ed completers = (name, some cands))
    (hne : cands ≠ []) (hpre : foldPrefix cands ≠ []) :
    ∃ ed1, startCompletionInner completers ed true = some ed1 ∧
      ed1.line = ed.line.take ed.dot.toNat ++ foldPrefix cands ++ ed.line.drop ed.dot.toNat ∧
      ed1.dot = ed.dot + (foldPrefix cands).length ∧
      ed1.mode = ed.mode ∧ ed1.completion = ed.completion ∧ ed1.tips = ed.tips ∧
      ed1.tokens = ed.tokens := by
  have h0 : ¬ cands.length = 0 := fun h => hne (List.length_eq_zero.mp h)
  refine ⟨ed.insertAtDot (foldPrefix cands), ?_, rfl, rfl, rfl, rfl, rfl, rfl⟩
  rw [startCompletionInner_of_token completers ed true tok node name (some cands) htok hnode hrun]
  simp [h0, hpre]

/-- C2 at the scenario of the specification: the candidates `foo` and
`foobar` insert `foo` and the editor stays in insert mode. -/
theorem startCompletionInner_prefix_inserted_witness :
    foldPrefix [textCandidate (ascii "foo"), textCandidate (ascii "foobar")] = ascii "foo" ∧
    ∃ ed1, startCompletionInner
        [constCompleter (ascii "path")
          (some [textCandidate (ascii "foo"), textCandidate (ascii "foobar")])]
        scenarioEditor true = some ed1 ∧
      ed1.line = scenarioEditor.line.take scenarioEditor.dot.toNat
        ++ foldPrefix [textCandidate (ascii "foo"), textCandidate (ascii "foobar")]
        ++ scenarioEditor.line.drop scenarioEditor.dot.toNat ∧
      ed1.dot = scenarioEditor.dot
        + (foldPrefix [textCandidate (ascii "foo"), textCandidate (ascii "foobar")]).length ∧
      ed1.mode = scenarioEditor.mode ∧ ed1.completion = scenarioEditor.completion ∧
      ed1.tips = scenarioEditor.tips ∧ ed1.tokens = scenarioEditor.tokens :=
  ⟨by decide,
   startCompletionInner_prefix_inserted
     [constCompleter (ascii "path")
       (some [textCandidate (ascii "foo"), textCandidate (ascii "foobar")])]
     scenarioEditor
     { Text := ascii "$HOME/foo", Node := some { tag := 2, Begin := 5, End := 14 } }
     { tag := 2, Begin := 5, End := 14 } (ascii "path")
     [textCandidate (ascii "foo"), textCandidate (ascii "foobar")]
     (by decide) rfl rfl (by simp) (by decide)⟩

/-! ## C3: a single candidate -/

/-- C3, the code at a single candidate with empty insertion text and
`completePrefix = true`: the folded prefix is empty, so the candidate is not
accepted; the picker opens (completion mode, a session holding the
candidate) and nothing is inserted. -/
theorem startCompletionInner_single_empty_candidate :
    startCompletionInner [constCompleter (ascii "path") (some [textCandidate []])]
        scenarioEditor true
      = some { scenarioEditor with
          completion :=
            { completer := ascii "path", candidates := [textCandidate []],
              selected := 0, lines := 0 }
          mode := ModeRef.completion } ∧
    scenarioEditor.mode = ModeRef.insert := by
  decide

/-! ## C4: the first completer with a non-nil result wins -/

/-- C4: if the completers before `w` all return nil for the node and `w`
returns a non-nil list (possibly empty), the loop of `startCompletionInner`
chooses the name and the list of `w`, and the outcome of
`startCompletionInner` does not depend on the completers after `w`. -/
theorem runCompleters_first_non_nil (node : Node) (ed : Editor)
    (pre post : List completerEntry) (w : completerEntry) (cands : List candidate)
    (hpre : ∀ c ∈ pre, c.completer node ed = none)
    (hw : w.completer node ed = some cands) :
    runCompleters node ed (pre ++ w :: post) = (w.name, some cands) ∧
    ∀ (tok : Token) (b : Bool) (post2 : List completerEntry),
      tokenAtDot ed = some tok → tok.Node = some node →
      startCompletionInner (pre ++ w :: post2) ed b
        = startCompletionInner (pre ++ w :: post) ed b := by
  have key : ∀ rest : List completerEntry,
      runCompleters node ed (pre ++ w :: rest) = (w.name, some cands) := by
    intro rest
    rw [runCompleters_append node ed pre (w :: rest) hpre]
    simp only [runCompleters, hw]
  refine ⟨key post, ?_⟩
  intro tok b post2 htok hnode
  rw [startCompletionInner_of_token _ ed b tok node w.name (some cands) htok hnode (key post2),
    startCompletionInner_of_token _ ed b tok node w.name (some cands) htok hnode (key post)]

/-- C4 at a list of three completers: the first declines, the second
returns an empty non-nil list and wins over the third, which has a candidate. -/
theorem runCompleters_first_non_nil_witness :
    runCompleters { tag := 2, Begin := 5, End := 14 } scenarioEditor
        ([constCompleter (ascii "a") none] ++ constCompleter (ascii "b") (some [])
          :: [constCompleter (ascii "c") (some [textCandidate (ascii "foo")])])
      = ((constCompleter (ascii "b") (some [])).name, some []) ∧
    ∀ (tok : Token) (b : Bool) (post2 : List completerEntry),
      tokenAtDot scenarioEditor = some tok → tok.Node = some { tag := 2, Begin := 5, End := 14 } →
      startCompletionInner
          ([constCompleter (ascii "a") none] ++ constCompleter (ascii "b") (some []) :: post2)
          scenarioEditor b
        = startCompletionInner
          ([constCompleter (ascii "a") none] ++ constCompleter (ascii "b") (some [])
            :: [constCompleter (ascii "c") (some [textCandidate (ascii "foo")])])
          scenarioEditor b :=
  runCompleters_first_non_nil { tag := 2, Begin := 5, End := 14 } scenarioEditor
    [constCompleter (ascii "a") none]
    [constCompleter (ascii "c") (some [textCandidate (ascii "foo")])]
    (constCompleter (ascii "b") (some [])) []
    (by intro c hc; rw [List.mem_singleton.mp hc]; rfl) rfl

/-! ## C5: the token at the cursor -/

theorem scanTokens_first (dot : Int) (pre : List Token) (t : Token) (post : List Token)
    (n : Node) (ht : t.Node = some n) (hlt : dot < n.End)
    (hpre : ∀ u ∈ pre, ∃ m, u.Node = some m ∧ m.End ≤ dot) :
    scanTokens dot (pre ++ t :: post) = some t := by
  induction pre with
  | nil => simp [scanTokens, ht, hlt]
  | cons u pre ih =>
    obtain ⟨m, hm, hle⟩ := hpre u (List.mem_cons_self _ _)
    have hnot : ¬ dot < m.End := by omega
    simp only [List.cons_append, scanTokens, hm, hnot, if_false]
    exact ih (fun x hx => hpre x (List.mem_cons_of_mem _ hx))

theorem scanTokens_none_after (dot : Int) (ts : List Token)
    (h : ∀ u ∈ ts, ∃ m, u.Node = some m ∧ m.End ≤ dot) :
    scanTokens dot ts = some badToken := by
  induction ts with
  | nil => rfl
  | cons u ts ih =>
    obtain ⟨m, hm, hle⟩ := h u (List.mem_cons_self _ _)
    have hnot : ¬ dot < m.End := by omega
    simp only [scanTokens, hm, hnot, if_false]
    exact ih (fun x hx => h x (List.mem_cons_of_mem _ hx))

/-- With a node on every token the scan returns a token of the list whose
node ends after `dot`, or `badToken` when no token ends after `dot`. -/
theorem scanTokens_cases (dot : Int) (ts : List Token) (hall : ∀ u ∈ ts, u.Node ≠ none) :
    (∃ pre t post n, ts = pre ++ t :: post ∧ t.Node = some n ∧ dot < n.End ∧
        (∀ u ∈ pre, ∃ m, u.Node = some m ∧ m.End ≤ dot) ∧ scanTokens dot ts = some t) ∨
    ((∀ u ∈ ts, ∃ m, u.Node = some m ∧ m.End ≤ dot) ∧ scanTokens dot ts = some badToken) := by
  induction ts with
  | nil => exact Or.inr ⟨by simp, rfl⟩
  | cons u ts ih =>
    have hu := hall u (List.mem_cons_self _ _)
    cases hnode : u.Node with
    | none => exact absurd hnode hu
    | some m =>
      by_cases hlt : dot < m.End
      · exact Or.inl ⟨[], u, ts, m, rfl, hnode, hlt, by simp, by simp [scanTokens, hnode, hlt]⟩
      · have hstep : scanTokens dot (u :: ts) = scanTokens dot ts := by
          simp [scanTokens, hnode, hlt]
        rcases ih (fun x hx => hall x (List.mem_cons_of_mem _ hx)) with
          ⟨pre, t, post, n, e, ht, hn, hp, hs⟩ | ⟨hp, hs⟩
        · refine Or.inl ⟨u :: pre, t, post, n, by rw [e]; rfl, ht, hn, ?_, by rw [hstep, hs]⟩
          intro x hx
          rcases List.mem_cons.mp hx with e1 | e1
          · rw [e1]; exact ⟨m, hnode, by omega⟩
          · exact hp x e1
        · refine Or.inr ⟨?_, by rw [hstep, hs]⟩
          intro x hx
          rcases List.mem_cons.mp hx with e1 | e1
          · rw [e1]; exact ⟨m, hnode, by omega⟩
          · exact hp x e1

/-- C5: on a token sequence whose tokens all carry a node, `tokenAtDot`
returns normally and gives (1) `badToken` if the sequence is empty or
`dot > len(line)`; (2) the last token if `dot == len(line)`, whatever the
spans; (3) otherwise the first token in order whose node ends strictly
after `dot` (every earlier token ending at or before `dot`), or `badToken`
if no token ends after `dot`; (4) so the result is `badToken` exactly when
the sequence is empty, or `dot > len(line)`, or `dot < len(line)` and no
token ends after `dot`. -/
theorem tokenAtDot_spec (ed : Editor) (hall : ∀ t ∈ ed.tokens, t.Node ≠ none) :
    ((ed.tokens = [] ∨ ed.dot > (ed.line.length : Int)) → tokenAtDot ed = some badToken) ∧
    (∀ hne : ed.tokens ≠ [], ed.dot = (ed.line.length : Int) →
      tokenAtDot ed = some (ed.tokens.getLast hne)) ∧
    (ed.tokens ≠ [] → ed.dot < (ed.line.length : Int) →
      (∀ pre t post n, ed.tokens = pre ++ t :: post → t.Node = some n → ed.dot < n.End →
        (∀ u ∈ pre, ∃ m, u.Node = some m ∧ m.End ≤ ed.dot) → tokenAtDot ed = some t) ∧
      ((∀ u ∈ ed.tokens, ∃ m, u.Node = some m ∧ m.End ≤ ed.dot) →
        tokenAtDot ed = some badToken) ∧
      ((∃ pre t post n, ed.tokens = pre ++ t :: post ∧ t.Node = some n ∧ ed.dot < n.End ∧
          (∀ u ∈ pre, ∃ m, u.Node = some m ∧ m.End ≤ ed.dot) ∧ tokenAtDot ed = some t) ∨
        ((∀ u ∈ ed.tokens, ∃ m, u.Node = some m ∧ m.End ≤ ed.dot) ∧
          tokenAtDot ed = some badToken))) ∧
    (tokenAtDot ed = some badToken ↔
      (ed.tokens = [] ∨ ed.dot > (ed.line.length : Int) ∨
        (ed.dot < (ed.line.length : Int) ∧
          ∀ u ∈ ed.tokens, ∃ m, u.Node = some m ∧ m.End ≤ ed.dot))) := by
  have h1 : (ed.tokens = [] ∨ ed.dot > (ed.line.length : Int)) →
      tokenAtDot ed = some badToken := by
    intro h
    have hc : ed.tokens.length = 0 ∨ ed.dot > (ed.line.length : Int) :=
      h.imp (fun e => by rw [e]; rfl) id
    simp only [tokenAtDot, hc, if_true]
  have h2 : ∀ hne : ed.tokens ≠ [], ed.dot = (ed.line.length : Int) →
      tokenAtDot ed = some (ed.tokens.getLast hne) := by
    intro hne he
    have hc : ¬ (ed.tokens.length = 0 ∨ ed.dot > (ed.line.length : Int)) := by
      rintro (h | h)
      · exact hne (List.length_eq_zero.mp h)
      · omega
    unfold tokenAtDot
    rw [if_neg hc, if_pos he, ← List.getLast?_eq_getElem?, List.getLast?_eq_getLast _ hne]
  have hscan : ed.tokens ≠ [] → ed.dot < (ed.line.length : Int) →
      tokenAtDot ed = scanTokens ed.dot ed.tokens := by
    intro hne hlt
    have hc : ¬ (ed.tokens.length = 0 ∨ ed.dot > (ed.line.length : Int)) := by
      rintro (h | h)
      · exact hne (List.length_eq_zero.mp h)
      · omega
    have hc2 : ¬ ed.dot = (ed.line.length : Int) := by omega
    simp only [tokenAtDot, hc, hc2, if_false]
  have hbad : ∀ t ∈ ed.tokens, t ≠ badToken := by
    intro t ht e
    exact hall t ht (by rw [e]; rfl)
  refine ⟨h1, h2, ?_, ?_⟩
  · intro hne hlt
    rw [hscan hne hlt]
    refine ⟨?_, scanTokens_none_after ed.dot ed.tokens, scanTokens_cases ed.dot ed.tokens hall⟩
    intro pre t post n e ht hn hp
    rw [e]
    exact scanTokens_first ed.dot pre t post n ht hn hp
  · constructor
    · intro hres
      by_cases hne : ed.tokens = []
      · exact Or.inl hne
      by_cases hgt : ed.dot > (ed.line.length : Int)
      · exact Or.inr (Or.inl hgt)
      by_cases heq : ed.dot = (ed.line.length : Int)
      · have := h2 hne heq
        rw [hres] at this
        exact absurd (Option.some.inj this).symm (hbad _ (List.getLast_mem hne))
      · have hlt : ed.dot < (ed.line.length : Int) := by omega
        refine Or.inr (Or.inr ⟨hlt, ?_⟩)
        rw [hscan hne hlt] at hres
        rcases scanTokens_cases ed.dot ed.tokens hall with
          ⟨pre, t, post, n, e, ht, hn, hp, hs⟩ | ⟨hp, _⟩
        · rw [hs] at hres
          have hmem : t ∈ ed.tokens := by rw [e]; simp
          exact absurd (Option.some.inj hres) (hbad t hmem)
        · exact hp
    · rintro (h | h | ⟨hlt, hp⟩)
      · exact h1 (Or.inl h)
      · exact h1 (Or.inr h)
      · by_cases hne : ed.tokens = []
        · exact h1 (Or.inl hne)
        · rw [hscan hne hlt]
          exact scanTokens_none_after ed.dot ed.tokens hp

/-- C5 at the scenario editor: every token carries a node, the cursor is at
the end of the line, and the token at the cursor is the last one. -/
theorem tokenAtDot_spec_witness :
    tokenAtDot scenarioEditor
      = some { Text := ascii "$HOME/foo", Node := some { tag := 2, Begin := 5, End := 14 } } ∧
    (tokenAtDot scenarioEditor = some badToken ↔
      (scenarioEditor.tokens = [] ∨ scenarioEditor.dot > (scenarioEditor.line.length : Int) ∨
        (scenarioEditor.dot < (scenarioEditor.line.length : Int) ∧
          ∀ u ∈ scenarioEditor.tokens, ∃ m, u.Node = some m ∧ m.End ≤ scenarioEditor.dot))) :=
  ⟨by decide, (tokenAtDot_spec scenarioEditor (by decide)).2.2.2⟩

/-! ## C7: accepting the selected candidate -/

/-- C7: after `acceptCompletion` the mode is the insert mode; if
`0 <= selected < len(candidates)` the line is the old line with exactly
`candidates[selected].source.text` inserted at the cursor and the cursor is
after it; if `selected` is out of range the line and the cursor are
unchanged.  The tips, the tokens and the session are unchanged in both cases. -/
theorem acceptCompletion_spec (ed : Editor) :
    (acceptCompletion ed).mode = ModeRef.insert ∧
    (∀ c : candidate, 0 ≤ ed.completion.selected →
      ed.completion.selected < (ed.completion.candidates.length : Int) →
      ed.completion.candidates[ed.completion.selected.toNat]? = some c →
      (acceptCompletion ed).line
          = ed.line.take ed.dot.toNat ++ c.source.text ++ ed.line.drop ed.dot.toNat ∧
        (acceptCompletion ed).dot = ed.dot + c.source.text.length) ∧
    (¬ (0 ≤ ed.completion.selected ∧
        ed.completion.selected < (ed.completion.candidates.length : Int)) →
      (acceptCompletion ed).line = ed.line ∧ (acceptCompletion ed).dot = ed.dot) ∧
    (acceptCompletion ed).tips = ed.tips ∧ (acceptCompletion ed).tokens = ed.tokens ∧
    (acceptCompletion ed).completion = ed.completion := by
  refine ⟨rfl, ?_, ?_, ?_, ?_, ?_⟩
  · intro c h0 h1 hc
    have h : 0 ≤ ed.completion.selected ∧
        ed.completion.selected < (ed.completion.candidates.length : Int) := ⟨h0, h1⟩
    have hlt : ed.completion.selected.toNat < ed.completion.candidates.length := by omega
    have hget : ed.completion.candidates[ed.completion.selected.toNat] = c := by
      rw [List.getElem?_eq_getElem hlt] at hc
      exact Option.some.inj hc
    simp [acceptCompletion, h, hget, Editor.insertAtDot]
  · intro h
    simp [acceptCompletion, h]
  · by_cases h : 0 ≤ ed.completion.selected ∧
        ed.completion.selected < (ed.completion.candidates.length : Int) <;>
      simp [acceptCompletion, h, Editor.insertAtDot]
  · by_cases h : 0 ≤ ed.completion.selected ∧
        ed.completion.selected < (ed.completion.candidates.length : Int) <;>
      simp [acceptCompletion, h, Editor.insertAtDot]
  · by_cases h : 0 ≤ ed.completion.selected ∧
        ed.completion.selected < (ed.completion.candidates.length : Int) <;>
      simp [acceptCompletion, h, Editor.insertAtDot]

/-- C7 at the scenario of the specification: the selected candidate has
insertion text `HOME/`, menu text `$HOME` and a suffix; exactly `HOME/` is
inserted and the mode becomes the insert mode. -/
theorem acceptCompletion_spec_witness :
    (acceptCompletion acceptScenario).line = ascii "echo $HOME/" ∧
    (acceptCompletion acceptScenario).dot = 11 ∧
    (acceptCompletion acceptScenario).mode = ModeRef.insert ∧
    (acceptCompletion acceptScenario).completion = acceptScenario.completion :=
  ⟨by decide, by decide, (acceptCompletion_spec acceptScenario).1,
   (acceptCompletion_spec acceptScenario).2.2.2.2.2⟩

/-! ## C8: opening the picker -/

/-- C8: from any prior state, when `startCompletionInner` opens the picker
(a full trigger with a non-empty winning list, or a prefix trigger whose
folded common prefix is empty), the mode becomes the completion mode and
the installed session is fresh: the winning completer's name, the winning
list in the order returned, `selected = 0` and `lines = 0`; the line, the
cursor, the tips and the tokens are unchanged. -/
theorem startCompletionInner_opens_picker (completers : List completerEntry) (ed : Editor)
    (b : Bool) (tok : Token) (node : Node) (name : GoString) (cands : List candidate)
    (htok : tokenAtDot ed = some tok) (hnode : tok.Node = some node)
    (hrun : runCompleters node ed completers = (name, some cands))
    (hne : cands ≠ []) (hb : b = false ∨ foldPrefix cands = []) :
    ∃ ed1, startCompletionInner completers ed b = some ed1 ∧
      ed1.mode = ModeRef.completion ∧
      ed1.completion = { completer := name, candidates := cands, selected := 0, lines := 0 } ∧
      ed1.line = ed.line ∧ ed1.dot = ed.dot ∧ ed1.tips = ed.tips ∧ ed1.tokens = ed.tokens := by
  have h0 : ¬ cands.length = 0 := fun h => hne (List.length_eq_zero.mp h)
  have hc : ¬ (b = true ∧ foldPrefix cands ≠ []) := by
    rintro ⟨h1, h2⟩
    rcases hb with h | h
    · rw [h] at h1; exact Bool.noConfusion h1
    · exact h2 h
  refine ⟨{ ed with
      completion := { completer := name, candidates := cands, selected := 0, lines := 0 }
      mode := ModeRef.completion }, ?_, rfl, rfl, rfl, rfl, rfl, rfl⟩
  rw [startCompletionInner_of_token completers ed b tok node name (some cands) htok hnode hrun]
  simp only [h0, hc, if_false]

/-- C8 at the scenario of the specification, from a prior state that holds
an earlier session: the candidates `foo` and `bar` have no common prefix,
so the prefix trigger opens the picker with 2 candidates, `selected = 0`. -/
theorem startCompletionInner_opens_picker_witness :
    ∃ ed1, startCompletionInner
        [constCompleter (ascii "path")
          (some [textCandidate (ascii "foo"), textCandidate (ascii "bar")])]
        { scenarioEditor with completion := acceptScenario.completion } true = some ed1 ∧
      ed1.mode = ModeRef.completion ∧
      ed1.completion = { completer := ascii "path",
                         candidates := [textCandidate (ascii "foo"), textCandidate (ascii "bar")],
                         selected := 0, lines := 0 } ∧
      ed1.line = scenarioEditor.line ∧ ed1.dot = scenarioEditor.dot ∧
      ed1.tips = scenarioEditor.tips ∧ ed1.tokens = scenarioEditor.tokens :=
  startCompletionInner_opens_picker
    [constCompleter (ascii "path")
      (some [textCandidate (ascii "foo"), textCandidate (ascii "bar")])]
    { scenarioEditor with completion := acceptScenario.completion } true
    { Text := ascii "$HOME/foo", Node := some { tag := 2, Begin := 5, End := 14 } }
    { tag := 2, Begin := 5, End := 14 } (ascii "path")
    [textCandidate (ascii "foo"), textCandidate (ascii "bar")]
    (by decide) rfl rfl (by simp) (Or.inr (by decide))

/-! ## C9: the advisory tips -/

theorem runCompleters_all_nil (node : Node) (ed : Editor) (completers : List completerEntry)
    (h : ∀ c ∈ completers, c.completer node ed = none) :
    runCompleters node ed completers = ([], none) := by
  have := runCompleters_append node ed completers [] h
  rw [List.append_nil] at this
  rw [this]
  rfl

/-- C9: with a valid token at the cursor, (a) if no completer returns a
non-nil result, exactly one tip is added and its text contains
`unsupported completion`; (b) if the first completer with a non-nil result
returns zero candidates, exactly one tip is added, `no candidate for`
followed by that completer's name.  In both cases the mode, the line, the
cursor, the stored session and the tokens are unchanged. -/
theorem startCompletionInner_tips (completers : List completerEntry) (ed : Editor) (b : Bool)
    (tok : Token) (node : Node)
    (htok : tokenAtDot ed = some tok) (hnode : tok.Node = some node) :
    ((∀ c ∈ completers, c.completer node ed = none) →
      ∃ ed1 tip, startCompletionInner completers ed b = some ed1 ∧
        ed1.tips = ed.tips ++ [tip] ∧ ascii "unsupported completion" <:+: tip ∧
        ed1.mode = ed.mode ∧ ed1.line = ed.line ∧ ed1.dot = ed.dot ∧
        ed1.completion = ed.completion ∧ ed1.tokens = ed.tokens) ∧
    (∀ (pre post : List completerEntry) (w : completerEntry),
      completers = pre ++ w :: post → (∀ c ∈ pre, c.completer node ed = none) →
      w.completer node ed = some [] →
      ∃ ed1, startCompletionInner completers ed b = some ed1 ∧
        ed1.tips = ed.tips ++ [ascii "no candidate for " ++ w.name] ∧
        ed1.mode = ed.mode ∧ ed1.line = ed.line ∧ ed1.dot = ed.dot ∧
        ed1.completion = ed.completion ∧ ed1.tokens = ed.tokens) := by
  constructor
  · intro hnil
    refine ⟨ed.addTip (ascii "unsupported completion :("), ascii "unsupported completion :(",
      ?_, rfl, ⟨[], ascii " :(", by decide⟩, rfl, rfl, rfl, rfl, rfl⟩
    rw [startCompletionInner_of_token completers ed b tok node [] none htok hnode
      (runCompleters_all_nil node ed completers hnil)]
  · intro pre post w e hpre hw
    refine ⟨ed.addTip (ascii "no candidate for " ++ w.name), ?_, rfl, rfl, rfl, rfl, rfl, rfl⟩
    have hrun : runCompleters node ed completers = (w.name, some []) := by
      rw [e]
      exact (runCompleters_first_non_nil node ed pre post w [] hpre hw).1
    rw [startCompletionInner_of_token completers ed b tok node w.name (some []) htok hnode hrun]
    rfl

/-- C9 at the scenario editor with a completer that declines followed by
one that returns an empty list: one tip, naming the second completer. -/
theorem startCompletionInner_tips_witness :
    ∃ ed1, startCompletionInner
        ([constCompleter (ascii "a") none] ++ constCompleter (ascii "b") (some []) :: [])
        scenarioEditor false = some ed1 ∧
      ed1.tips = scenarioEditor.tips
        ++ [ascii "no candidate for " ++ (constCompleter (ascii "b") (some [])).name] ∧
      ed1.mode = scenarioEditor.mode ∧ ed1.line = scenarioEditor.line ∧
      ed1.dot = scenarioEditor.dot ∧ ed1.completion = scenarioEditor.completion ∧
      ed1.tokens = scenarioEditor.tokens :=
  (startCompletionInner_tips
    ([constCompleter (ascii "a") none] ++ constCompleter (ascii "b") (some []) :: [])
    scenarioEditor false
    { Text := ascii "$HOME/foo", Node := some { tag := 2, Begin := 5, End := 14 } }
    { tag := 2, Begin := 5, End := 14 } (by decide) rfl).2
    [constCompleter (ascii "a") none] [] (constCompleter (ascii "b") (some [])) rfl
    (by intro c hc; rw [List.mem_singleton.mp hc]; rfl) rfl

/-! ## C10: a cursor beyond the line, or no tokens -/

/-- C10 as stated fails: with the cursor beyond the end of the line the
token at the cursor is `badToken` and `startCompletionInner` returns the
editor as it was; after the call the tip list is still empty, so no
advisory tip is shown. -/
theorem startCompletionInner_stale_cursor_no_tip :
    staleEditor.dot > (staleEditor.line.length : Int) ∧
    tokenAtDot staleEditor = some badToken ∧
    startCompletionInner [constCompleter (ascii "path") none] staleEditor false
      = some staleEditor ∧
    (startCompletionInner [constCompleter (ascii "path") none] staleEditor false).map Editor.tips
      = some [] := by
  decide

/-- C10, amended: if the cursor is beyond the end of the line or the token
sequence is empty, the token at the cursor is `badToken` and
`startCompletionInner` returns without any effect, whatever the completers
are and whatever they would return: no tip is added and the mode, the line,
the cursor and the session are unchanged. -/
theorem startCompletionInner_invalid_cursor (ed : Editor)
    (h : ed.dot > (ed.line.length : Int) ∨ ed.tokens = []) :
    tokenAtDot ed = some badToken ∧
    ∀ (completers : List completerEntry) (b : Bool),
      startCompletionInner completers ed b = some ed := by
  have hc : ed.tokens.length = 0 ∨ ed.dot > (ed.line.length : Int) :=
    h.symm.imp (fun e => by rw [e]; rfl) id
  have htok : tokenAtDot ed = some badToken := by
    simp only [tokenAtDot, hc, if_true]
  refine ⟨htok, ?_⟩
  intro completers b
  simp only [startCompletionInner, htok, badToken]

/-- C10, amended, at an editor whose cursor is beyond the end of the line. -/
theorem startCompletionInner_invalid_cursor_witness :
    (staleEditor.dot > (staleEditor.line.length : Int) ∨ staleEditor.tokens = []) ∧
    (tokenAtDot staleEditor = some badToken ∧
      ∀ (completers : List completerEntry) (b : Bool),
        startCompletionInner completers staleEditor b = some staleEditor) :=
  ⟨Or.inl (by decide), startCompletionInner_invalid_cursor staleEditor (Or.inl (by decide))⟩

/-! ## C6: the invariant of the session -/

theorem next_inv (c : completion) (cycle : Bool) (h : SessionInv c) :
    SessionInv (c.next cycle) := by
  obtain ⟨h1, h2, h3, h4⟩ := h
  unfold completion.next SessionInv
  simp only
  split_ifs <;> refine ⟨h1, ?_, ?_, h4⟩ <;> simp only <;> omega

theorem prev_inv (c : completion) (cycle : Bool) (h : SessionInv c) :
    SessionInv (c.prev cycle) := by
  obtain ⟨h1, h2, h3, h4⟩ := h
  unfold completion.prev SessionInv
  simp only
  split_ifs <;> refine ⟨h1, ?_, ?_, h4⟩ <;> simp only <;> omega

theorem wrapInt_eq (x : Int) (h1 : minInt ≤ x) (h2 : x ≤ maxInt) : wrapInt x = x := by
  unfold minInt at h1
  unfold maxInt at h2
  unfold wrapInt
  rw [Int.emod_eq_of_lt (by omega) (by omega)]
  omega

theorem wrapInt_range (x : Int) : minInt ≤ wrapInt x ∧ wrapInt x ≤ maxInt := by
  unfold minInt maxInt wrapInt
  have h1 := Int.emod_nonneg (x + 9223372036854775808)
    (show (18446744073709551616 : Int) ≠ 0 by omega)
  have h2 := Int.emod_lt_of_pos (x + 9223372036854775808)
    (show (0 : Int) < 18446744073709551616 by omega)
  omega

theorem next_bound (c : completion) (cycle : Bool) (h : SessionBound c) :
    SessionBound (c.next cycle) := by
  unfold completion.next
  simp only
  split_ifs <;> exact h

theorem prev_bound (c : completion) (cycle : Bool) (h : SessionBound c) :
    SessionBound (c.prev cycle) := by
  unfold completion.prev
  simp only
  split_ifs <;> exact h

theorem selectCandLeft_bound (ed : Editor) (h : SessionBound ed.completion) :
    SessionBound (selectCandLeft ed).completion := by
  unfold selectCandLeft
  simp only
  split_ifs <;> exact h

theorem selectCandRight_bound (ed : Editor) (h : SessionBound ed.completion) :
    SessionBound (selectCandRight ed).completion := by
  unfold selectCandRight
  simp only
  split_ifs <;> exact h

theorem selectCandLeft_inv (ed : Editor) (h : SessionInv ed.completion)
    (hb : SessionBound ed.completion) :
    SessionInv (selectCandLeft ed).completion := by
  obtain ⟨h1, h2, h3, h4⟩ := h
  obtain ⟨b1, b2⟩ := hb
  have e : wrapInt (ed.completion.selected - ed.completion.lines)
      = ed.completion.selected - ed.completion.lines :=
    wrapInt_eq _ (by unfold minInt; unfold maxCandidates at b2; omega)
      (by unfold maxInt; unfold maxCandidates at b2; omega)
  unfold selectCandLeft
  simp only [e]
  split_ifs with hc
  · exact ⟨h1, by simp only; omega, by simp only; omega, h4⟩
  · exact ⟨h1, h2, h3, h4⟩

theorem selectCandRight_inv (ed : Editor) (h : SessionInv ed.completion)
    (hb : SessionBound ed.completion) :
    SessionInv (selectCandRight ed).completion := by
  obtain ⟨h1, h2, h3, h4⟩ := h
  obtain ⟨b1, b2⟩ := hb
  have e : wrapInt (ed.completion.selected + ed.completion.lines)
      = ed.completion.selected + ed.completion.lines :=
    wrapInt_eq _ (by unfold minInt; omega)
      (by unfold maxInt; unfold maxCandidates at b2; omega)
  unfold selectCandRight
  simp only [e]
  split_ifs with hc
  · exact ⟨h1, by simp only; omega, by simp only; omega, h4⟩
  · exact ⟨h1, h2, h3, h4⟩

theorem le_foldl_colWidth (env : ListEnv) (cands : List candidate) :
    ∀ init : Int, init ≤ cands.foldl
      (fun colWidth cand =>
        let width := env.WcWidths cand.menu.text
        if colWidth < width then width else colWidth) init := by
  induction cands with
  | nil => intro init; exact le_refl _
  | cons c cs ih =>
    intro init
    simp only [List.foldl_cons]
    split_ifs with hlt
    · exact le_trans (le_of_lt hlt) (ih _)
    · exact ih _

theorem listColWidth_nonneg (env : ListEnv) (cands : List candidate) :
    0 ≤ listColWidth env cands :=
  le_foldl_colWidth env cands 0

theorem listCols_pos (width colWidth : Int) (hw : 0 ≤ width) (hc : 0 ≤ colWidth) :
    1 ≤ listCols width colWidth := by
  have h : 0 ≤ Int.tdiv (width + completionListingColMargin)
      (colWidth + completionListingColMargin) :=
    Int.tdiv_nonneg (by unfold completionListingColMargin; omega)
      (by unfold completionListingColMargin; omega)
  unfold listCols
  simp only
  split_ifs with h0
  · exact le_refl _
  · omega

theorem CeilDiv_nonneg (a b : Int) (ha : 0 ≤ a) (hb : 1 ≤ b) : 0 ≤ CeilDiv a b := by
  unfold CeilDiv
  rw [Int.fdiv_eq_ediv _ (by omega)]
  have : -a / b < 1 := Int.ediv_lt_of_lt_mul (by omega) (by omega)
  omega

theorem List_session (env : ListEnv) (comp : completion) (width maxHeight : Int)
    (r : completion × buffer) (h : comp.List env width maxHeight = some r) :
    r.1 = { comp with
      lines := CeilDiv comp.candidates.length
        (listCols width (listColWidth env comp.candidates)) } := by
  unfold completion.List at h
  simp only [newBuffer] at h
  split_ifs at h
  split at h
  · exact absurd h (by simp)
  · rw [← Option.some.inj h]

theorem CeilDiv_le (a b : Int) (ha : 0 ≤ a) (hb : 1 ≤ b) : CeilDiv a b ≤ a := by
  unfold CeilDiv
  rw [Int.fdiv_eq_ediv _ (by omega)]
  have h : -a ≤ -a / b := Int.le_ediv_of_mul_le (by omega) (by nlinarith)
  omega

theorem listCompletion_bound (env : ListEnv) (ed ed1 : Editor) (width maxHeight : Int)
    (hw : 0 ≤ width) (h : listCompletion env ed width maxHeight = some ed1)
    (hb : SessionBound ed.completion) : SessionBound ed1.completion := by
  unfold listCompletion at h
  split at h
  · exact absurd h (by simp)
  · rename_i r hr
    have e := List_session env ed.completion width maxHeight r hr
    rw [← Option.some.inj h]
    simp only
    rw [e]
    exact ⟨CeilDiv_le _ _ (by omega) (listCols_pos width _ hw (listColWidth_nonneg env _)),
      hb.2⟩

theorem listCompletion_inv (env : ListEnv) (ed ed1 : Editor) (width maxHeight : Int)
    (hw : 0 ≤ width) (h : listCompletion env ed width maxHeight = some ed1)
    (hinv : SessionInv ed.completion) : SessionInv ed1.completion := by
  obtain ⟨h1, h2, h3, _⟩ := hinv
  unfold listCompletion at h
  split at h
  · exact absurd h (by simp)
  · rename_i r hr
    have e := List_session env ed.completion width maxHeight r hr
    rw [← Option.some.inj h]
    simp only
    rw [e]
    exact ⟨h1, h2, h3,
      CeilDiv_nonneg _ _ (by omega) (listCols_pos width _ hw (listColWidth_nonneg env _))⟩

/-- C6: in every state reachable from a completion trigger that opened the
picker, by `next(cycle)`, `prev(cycle)`, `selectCandUp`, `selectCandDown`,
`selectCandLeft`, `selectCandRight`, `cycleCandRight` and `List(width,
maxHeight)` with `width >= 0`, the candidate list is non-empty,
`0 <= selected < len(candidates)` and `lines >= 0`.  In particular `next`
and `prev` with cycling give an index in `[0, n)` there.  The reachable
states are those of a candidate list of at most 2^62 entries, where the
64-bit sum `selected + lines` of `selectCandRight` does not overflow. -/
theorem reachable_session_invariant (completers : List completerEntry) (ed : Editor)
    (h : Reachable completers ed) :
    (ed.completion.candidates ≠ [] ∧ 0 ≤ ed.completion.selected ∧
      ed.completion.selected < (ed.completion.candidates.length : Int) ∧
      0 ≤ ed.completion.lines) ∧
    (0 ≤ (ed.completion.next true).selected ∧
      (ed.completion.next true).selected < (ed.completion.candidates.length : Int)) ∧
    (0 ≤ (ed.completion.prev true).selected ∧
      (ed.completion.prev true).selected < (ed.completion.candidates.length : Int)) := by
  have hboth : SessionInv ed.completion ∧ SessionBound ed.completion := by
    induction h with
    | trigger ed0 ed1 b hopen hstart hlen =>
      obtain ⟨tok, node, name, cands, htok, hnode, hrun, hne, hb⟩ := hopen
      obtain ⟨ed2, h2, _, hc, _⟩ :=
        startCompletionInner_opens_picker completers ed0 b tok node name cands htok hnode hrun
          hne hb
      rw [hstart] at h2
      rw [Option.some.inj h2, hc] at hlen ⊢
      have hpos : 0 < cands.length := List.length_pos.mpr hne
      exact ⟨⟨hne, le_refl _, by simp only; omega, le_refl _⟩,
        ⟨by simp only; omega, hlen⟩⟩
    | next ed0 cycle _ ih => exact ⟨next_inv _ cycle ih.1, next_bound _ cycle ih.2⟩
    | prev ed0 cycle _ ih => exact ⟨prev_inv _ cycle ih.1, prev_bound _ cycle ih.2⟩
    | up ed0 _ ih => exact ⟨prev_inv _ false ih.1, prev_bound _ false ih.2⟩
    | down ed0 _ ih => exact ⟨next_inv _ false ih.1, next_bound _ false ih.2⟩
    | left ed0 _ ih => exact ⟨selectCandLeft_inv ed0 ih.1 ih.2, selectCandLeft_bound ed0 ih.2⟩
    | right ed0 _ ih =>
      exact ⟨selectCandRight_inv ed0 ih.1 ih.2, selectCandRight_bound ed0 ih.2⟩
    | cycleRight ed0 _ ih => exact ⟨next_inv _ true ih.1, next_bound _ true ih.2⟩
    | list env ed0 ed1 width maxHeight _ hw hl ih =>
      exact ⟨listCompletion_inv env ed0 ed1 width maxHeight hw hl ih.1,
        listCompletion_bound env ed0 ed1 width maxHeight hw hl ih.2⟩
  have hinv := hboth.1
  have hn := next_inv ed.completion true hinv
  have hp := prev_inv ed.completion true hinv
  have en : (ed.completion.next true).candidates = ed.completion.candidates := by
    unfold completion.next
    simp only
    split_ifs <;> rfl
  have ep : (ed.completion.prev true).candidates = ed.completion.candidates := by
    unfold completion.prev
    simp only
    split_ifs <;> rfl
  refine ⟨hinv, ⟨hn.2.1, ?_⟩, ⟨hp.2.1, ?_⟩⟩
  · have := hn.2.2.1
    rw [en] at this
    exact this
  · have := hp.2.2.1
    rw [ep] at this
    exact this

/-- C6 at the picker scenario: the trigger on `foo`, `bar`, a redraw of
width 80 and `cycleCandRight` reach a state with `selected = 1`, which
satisfies the invariant. -/
theorem reachable_session_invariant_witness :
    Reachable scenarioCompleters (cycleCandRight pickerListed) ∧
    (cycleCandRight pickerListed).completion.selected = 1 ∧
    ((cycleCandRight pickerListed).completion.candidates ≠ [] ∧
      0 ≤ (cycleCandRight pickerListed).completion.selected ∧
      (cycleCandRight pickerListed).completion.selected
        < ((cycleCandRight pickerListed).completion.candidates.length : Int) ∧
      0 ≤ (cycleCandRight pickerListed).completion.lines) :=
  have r : Reachable scenarioCompleters (cycleCandRight pickerListed) :=
    Reachable.cycleRight pickerListed
      (Reachable.list plainEnv pickerScenario pickerListed 80 10
        (Reachable.trigger scenarioEditor pickerScenario true
          ⟨{ Text := ascii "$HOME/foo", Node := some { tag := 2, Begin := 5, End := 14 } },
            { tag := 2, Begin := 5, End := 14 }, ascii "path",
            [textCandidate (ascii "foo"), textCandidate (ascii "bar")],
            by decide, rfl, rfl, by simp, Or.inr (by decide)⟩
          (by decide) (by decide))
        (by decide) (by decide))
  ⟨r, by decide, (reachable_session_invariant scenarioCompleters _ r).1⟩

/-! ## C11: cycling through the candidates -/

theorem next_true_eq (c : completion) (h0 : 0 ≤ c.selected)
    (h1 : c.selected < (c.candidates.length : Int)) :
    c.next true
      = { c with selected := (c.selected + 1) % (c.candidates.length : Int) } := by
  unfold completion.next
  simp only
  split_ifs with h
  · rw [h, Int.emod_self]
  · rw [Int.emod_eq_of_lt (by omega) (by omega)]

theorem prev_true_eq (c : completion) (h0 : 0 ≤ c.selected)
    (h1 : c.selected < (c.candidates.length : Int)) :
    c.prev true
      = { c with selected := (c.selected - 1) % (c.candidates.length : Int) } := by
  unfold completion.prev
  simp only
  split_ifs with h
  · have e : (c.selected - 1) % (c.candidates.length : Int)
        = (c.candidates.length : Int) - 1 := by
      rw [← Int.add_emod_self, Int.emod_eq_of_lt (by omega) (by omega)]
      omega
    rw [e]
  · rw [Int.emod_eq_of_lt (by omega) (by omega)]

theorem iterate_next_true (c : completion) (h0 : 0 ≤ c.selected)
    (h1 : c.selected < (c.candidates.length : Int)) (k : Nat) :
    (fun x : completion => x.next true)^[k] c
      = { c with selected := (c.selected + (k : Int)) % (c.candidates.length : Int) } := by
  have hpos : (0 : Int) < (c.candidates.length : Int) := by omega
  induction k with
  | zero =>
    simp only [Function.iterate_zero, id_eq, Nat.cast_zero, add_zero]
    rw [Int.emod_eq_of_lt h0 h1]
  | succ k ih =>
    rw [Function.iterate_succ_apply', ih]
    rw [next_true_eq _ (Int.emod_nonneg _ (by omega)) (Int.emod_lt_of_pos _ hpos)]
    simp only [Int.emod_add_emod, Nat.cast_add, Nat.cast_one, add_assoc]

theorem iterate_prev_true (c : completion) (h0 : 0 ≤ c.selected)
    (h1 : c.selected < (c.candidates.length : Int)) (k : Nat) :
    (fun x : completion => x.prev true)^[k] c
      = { c with selected := (c.selected - (k : Int)) % (c.candidates.length : Int) } := by
  have hpos : (0 : Int) < (c.candidates.length : Int) := by omega
  induction k with
  | zero =>
    simp only [Function.iterate_zero, id_eq, Nat.cast_zero, sub_zero]
    rw [Int.emod_eq_of_lt h0 h1]
  | succ k ih =>
    rw [Function.iterate_succ_apply', ih]
    rw [prev_true_eq _ (Int.emod_nonneg _ (by omega)) (Int.emod_lt_of_pos _ hpos)]
    have e : ∀ m n j : Int, (m % n - j) % n = (m - j) % n := by
      intro m n j
      rw [sub_eq_add_neg, Int.emod_add_emod, ← sub_eq_add_neg]
    simp only [e, Nat.cast_add, Nat.cast_one, sub_sub]

/-- C11: for a session with `n >= 1` candidates and `selected` in `[0, n)`,
`next(true)` applied `n` times gives back the session it started from, and
so does `prev(true)` applied `n` times; after any number of steps the
selected index is in `[0, n)`. -/
theorem next_prev_cycle_period (c : completion) (hn : 1 ≤ c.candidates.length)
    (h0 : 0 ≤ c.selected) (h1 : c.selected < (c.candidates.length : Int)) :
    (fun x : completion => x.next true)^[c.candidates.length] c = c ∧
    (fun x : completion => x.prev true)^[c.candidates.length] c = c ∧
    ∀ k : Nat,
      (0 ≤ ((fun x : completion => x.next true)^[k] c).selected ∧
        ((fun x : completion => x.next true)^[k] c).selected < (c.candidates.length : Int)) ∧
      (0 ≤ ((fun x : completion => x.prev true)^[k] c).selected ∧
        ((fun x : completion => x.prev true)^[k] c).selected < (c.candidates.length : Int)) := by
  have hpos : (0 : Int) < (c.candidates.length : Int) := by omega
  refine ⟨?_, ?_, ?_⟩
  · rw [iterate_next_true c h0 h1, Int.add_emod_self, Int.emod_eq_of_lt h0 h1]
  · rw [iterate_prev_true c h0 h1]
    have e : (c.selected - (c.candidates.length : Int)) % (c.candidates.length : Int)
        = c.selected := by
      rw [← Int.add_emod_self, sub_add_cancel, Int.emod_eq_of_lt h0 h1]
    rw [e]
  · intro k
    rw [iterate_next_true c h0 h1, iterate_prev_true c h0 h1]
    exact ⟨⟨Int.emod_nonneg _ (by omega), Int.emod_lt_of_pos _ hpos⟩,
      ⟨Int.emod_nonneg _ (by omega), Int.emod_lt_of_pos _ hpos⟩⟩

/-- C11 at the picker scenario after a redraw: two candidates, `selected = 0`. -/
theorem next_prev_cycle_period_witness :
    (fun x : completion => x.next true)^[pickerListed.completion.candidates.length]
        pickerListed.completion = pickerListed.completion ∧
    (fun x : completion => x.prev true)^[pickerListed.completion.candidates.length]
        pickerListed.completion = pickerListed.completion :=
  ⟨(next_prev_cycle_period pickerListed.completion (by decide) (by decide) (by decide)).1,
   (next_prev_cycle_period pickerListed.completion (by decide) (by decide) (by decide)).2.1⟩

/-! ## C12: navigation out of range -/

/-- C12 as stated fails in two places.  With two candidates and the last
one selected, `next(true)` is not the case `next(false)` at `n-1`, and it
sets `selected` to 0, not to `selected + 1`; likewise `prev(true)` at 0 sets
`selected` to `n-1`.  And at `selected = 1`, `lines = math.MaxInt64` the sum
`selected + lines` is at least `n`, but the 64-bit sum is `math.MinInt64`,
below `n`, so `selectCandRight` stores it and the session changes. -/
theorem navigation_claim_fails :
    (lastSelected.selected = (lastSelected.candidates.length : Int) - 1 ∧
      (lastSelected.next true).selected = 0 ∧
      (lastSelected.next true).selected ≠ lastSelected.selected + 1) ∧
    (pickerListed.completion.selected = 0 ∧
      (pickerListed.completion.prev true).selected = 1 ∧
      (pickerListed.completion.prev true).selected ≠ pickerListed.completion.selected - 1) ∧
    (overflowEditor.completion.selected + overflowEditor.completion.lines
        ≥ (overflowEditor.completion.candidates.length : Int) ∧
      (selectCandRight overflowEditor).completion.selected = minInt ∧
      selectCandRight overflowEditor ≠ overflowEditor) := by
  decide

/-- C12 amended: in every session, `next(false)` at `selected = n-1` and
`prev(false)` at `selected = 0` leave the session unchanged;
`selectCandLeft` leaves the editor unchanged when `selected - lines < 0`
and `selectCandRight` when `selected + lines >= n`, the difference and the
sum being the 64-bit values that Go computes, which are the mathematical
values when these lie between `math.MinInt64` and `math.MaxInt64`.
Otherwise, with `selected` in `[0, n)`: away from the boundary `next` and
`prev` change only `selected`, by `+1` and `-1`, for both values of
`cycle`; at the boundary `next(true)` sets `selected` to 0 and
`prev(true)` sets it to `n-1`; and `selectCandRight` and `selectCandLeft`
change only `selected`, by `+lines` and `-lines` (as 64-bit values). -/
theorem navigation_out_of_range (ed : Editor) :
    (ed.completion.selected = (ed.completion.candidates.length : Int) - 1 →
      ed.completion.next false = ed.completion ∧ selectCandDown ed = ed) ∧
    (ed.completion.selected = 0 →
      ed.completion.prev false = ed.completion ∧ selectCandUp ed = ed) ∧
    (wrapInt (ed.completion.selected - ed.completion.lines) < 0 → selectCandLeft ed = ed) ∧
    (wrapInt (ed.completion.selected + ed.completion.lines)
        ≥ (ed.completion.candidates.length : Int) → selectCandRight ed = ed) ∧
    (minInt ≤ ed.completion.selected - ed.completion.lines →
      ed.completion.selected - ed.completion.lines < 0 → selectCandLeft ed = ed) ∧
    (ed.completion.selected + ed.completion.lines ≤ maxInt →
      ed.completion.selected + ed.completion.lines ≥ (ed.completion.candidates.length : Int) →
      selectCandRight ed = ed) ∧
    (0 ≤ ed.completion.selected →
      ed.completion.selected < (ed.completion.candidates.length : Int) →
      (∀ cycle : Bool, ed.completion.selected ≠ (ed.completion.candidates.length : Int) - 1 →
        ed.completion.next cycle
          = { ed.completion with selected := ed.completion.selected + 1 }) ∧
      (∀ cycle : Bool, ed.completion.selected ≠ 0 →
        ed.completion.prev cycle
          = { ed.completion with selected := ed.completion.selected - 1 }) ∧
      (ed.completion.selected = (ed.completion.candidates.length : Int) - 1 →
        ed.completion.next true = { ed.completion with selected := 0 }) ∧
      (ed.completion.selected = 0 →
        ed.completion.prev true
          = { ed.completion with
              selected := (ed.completion.candidates.length : Int) - 1 }) ∧
      (wrapInt (ed.completion.selected + ed.completion.lines)
          < (ed.completion.candidates.length : Int) →
        selectCandRight ed
          = { ed with completion :=
                { ed.completion with
                  selected := wrapInt (ed.completion.selected + ed.completion.lines) } }) ∧
      (wrapInt (ed.completion.selected - ed.completion.lines) ≥ 0 →
        selectCandLeft ed
          = { ed with completion :=
                { ed.completion with
                  selected := wrapInt (ed.completion.selected - ed.completion.lines) } }) ∧
      (minInt ≤ ed.completion.selected + ed.completion.lines →
        ed.completion.selected + ed.completion.lines ≤ maxInt →
        ed.completion.selected + ed.completion.lines < (ed.completion.candidates.length : Int) →
        selectCandRight ed
          = { ed with completion :=
                { ed.completion with
                  selected := ed.completion.selected + ed.completion.lines } }) ∧
      (ed.completion.selected - ed.completion.lines ≤ maxInt →
        ed.completion.selected - ed.completion.lines ≥ 0 →
        selectCandLeft ed
          = { ed with completion :=
                { ed.completion with
                  selected := ed.completion.selected - ed.completion.lines } })) := by
  have hnext : ed.completion.selected = (ed.completion.candidates.length : Int) - 1 →
      ed.completion.next false = ed.completion := by
    intro h
    have h2 : ed.completion.selected + 1 = (ed.completion.candidates.length : Int) := by omega
    have h3 : ed.completion.selected + 1 - 1 = ed.completion.selected := by omega
    simp only [completion.next, h2, if_true, Bool.false_eq_true, if_false]
    rw [← h2, h3]
  have hprev : ed.completion.selected = 0 → ed.completion.prev false = ed.completion := by
    intro h
    have h2 : ed.completion.selected - 1 = -1 := by omega
    have h3 : ed.completion.selected - 1 + 1 = ed.completion.selected := by omega
    simp only [completion.prev, h2, if_true, Bool.false_eq_true, if_false]
    rw [← h2, h3]
  have hleft : wrapInt (ed.completion.selected - ed.completion.lines) < 0 →
      selectCandLeft ed = ed := by
    intro h
    have h2 : ¬ wrapInt (ed.completion.selected - ed.completion.lines) ≥ 0 := by omega
    simp only [selectCandLeft, h2, if_false]
  have hright : wrapInt (ed.completion.selected + ed.completion.lines)
      ≥ (ed.completion.candidates.length : Int) → selectCandRight ed = ed := by
    intro h
    have h2 : ¬ wrapInt (ed.completion.selected + ed.completion.lines)
        < (ed.completion.candidates.length : Int) := by omega
    simp only [selectCandRight, h2, if_false]
  have hmr : wrapInt (ed.completion.selected + ed.completion.lines)
      < (ed.completion.candidates.length : Int) →
      selectCandRight ed
        = { ed with completion :=
              { ed.completion with
                selected := wrapInt (ed.completion.selected + ed.completion.lines) } } := by
    intro h
    simp only [selectCandRight, h, if_true]
  have hml : wrapInt (ed.completion.selected - ed.completion.lines) ≥ 0 →
      selectCandLeft ed
        = { ed with completion :=
              { ed.completion with
                selected := wrapInt (ed.completion.selected - ed.completion.lines) } } := by
    intro h
    simp only [selectCandLeft, h, if_true]
  refine ⟨?_, ?_, hleft, hright, ?_, ?_, ?_⟩
  · intro h
    exact ⟨hnext h, by simp only [selectCandDown, hnext h]⟩
  · intro h
    exact ⟨hprev h, by simp only [selectCandUp, hprev h]⟩
  · intro hmin h
    apply hleft
    rw [wrapInt_eq _ hmin (by unfold maxInt; omega)]
    exact h
  · intro hmax h
    apply hright
    rw [wrapInt_eq _ (by unfold minInt; omega) hmax]
    exact h
  · intro h0 h1
    refine ⟨?_, ?_, ?_, ?_, hmr, hml, ?_, ?_⟩
    · intro cycle h
      have h2 : ¬ ed.completion.selected + 1 = (ed.completion.candidates.length : Int) := by
        omega
      simp only [completion.next, h2, if_false]
    · intro cycle h
      have h2 : ¬ ed.completion.selected - 1 = -1 := by omega
      simp only [completion.prev, h2, if_false]
    · intro h
      have h2 : ed.completion.selected + 1 = (ed.completion.candidates.length : Int) := by omega
      simp only [completion.next, h2, if_true]
    · intro h
      have h2 : ed.completion.selected - 1 = -1 := by omega
      simp only [completion.prev, h2, if_true]
    · intro hmin hmax h
      have e := wrapInt_eq (ed.completion.selected + ed.completion.lines) hmin hmax
      have h3 := hmr (by rw [e]; exact h)
      rw [e] at h3
      exact h3
    · intro hmax h
      have e := wrapInt_eq (ed.completion.selected - ed.completion.lines)
        (by unfold minInt; omega) hmax
      have h3 := hml (by rw [e]; exact h)
      rw [e] at h3
      exact h3

/-- C12 amended, at the picker scenario after a redraw (two candidates in
one row, `selected = 0`, `lines = 1`): `prev(false)` and `selectCandLeft`
do nothing, `selectCandRight` moves to index 1, and from the last index
`next(true)` goes to index 0. -/
theorem navigation_out_of_range_witness :
    pickerListed.completion.prev false = pickerListed.completion ∧
    selectCandUp pickerListed = pickerListed ∧
    selectCandLeft pickerListed = pickerListed ∧
    selectCandRight pickerListed
      = { pickerListed with completion := { pickerListed.completion with selected := 0 + 1 } } ∧
    ({ pickerListed with completion := lastSelected } : Editor).completion.next true
      = { lastSelected with selected := 0 } :=
  ⟨((navigation_out_of_range pickerListed).2.1 (by decide)).1,
   ((navigation_out_of_range pickerListed).2.1 (by decide)).2,
   (navigation_out_of_range pickerListed).2.2.2.2.1 (by decide) (by decide),
   ((navigation_out_of_range pickerListed).2.2.2.2.2.2 (by decide) (by decide)).2.2.2.2.2.2.1
     (by decide) (by decide) (by decide),
   ((navigation_out_of_range { pickerListed with completion := lastSelected }).2.2.2.2.2.2
     (by decide) (by decide)).2.2.1 (by decide)⟩

/-! ## C18: the frame of the session operations -/

theorem next_frame (c : completion) (cycle : Bool) :
    (c.next cycle).completer = c.completer ∧ (c.next cycle).candidates = c.candidates ∧
    (c.next cycle).lines = c.lines := by
  unfold completion.next
  simp only
  split_ifs <;> exact ⟨rfl, rfl, rfl⟩

theorem prev_frame (c : completion) (cycle : Bool) :
    (c.prev cycle).completer = c.completer ∧ (c.prev cycle).candidates = c.candidates ∧
    (c.prev cycle).lines = c.lines := by
  unfold completion.prev
  simp only
  split_ifs <;> exact ⟨rfl, rfl, rfl⟩

theorem selectCandLeft_frame (ed : Editor) :
    (selectCandLeft ed).completion.completer = ed.completion.completer ∧
    (selectCandLeft ed).completion.candidates = ed.completion.candidates ∧
    (selectCandLeft ed).completion.lines = ed.completion.lines := by
  unfold selectCandLeft
  simp only
  split_ifs <;> exact ⟨rfl, rfl, rfl⟩

theorem selectCandRight_frame (ed : Editor) :
    (selectCandRight ed).completion.completer = ed.completion.completer ∧
    (selectCandRight ed).completion.candidates = ed.completion.candidates ∧
    (selectCandRight ed).completion.lines = ed.completion.lines := by
  unfold selectCandRight
  simp only
  split_ifs <;> exact ⟨rfl, rfl, rfl⟩

theorem sessionStep_frame (c d : completion) (h : SessionStep c d) :
    d.completer = c.completer ∧ d.candidates = c.candidates := by
  cases h with
  | next _ cycle => exact ⟨(next_frame c cycle).1, (next_frame c cycle).2.1⟩
  | prev _ cycle => exact ⟨(prev_frame c cycle).1, (prev_frame c cycle).2.1⟩
  | left ed => exact ⟨(selectCandLeft_frame ed).1, (selectCandLeft_frame ed).2.1⟩
  | right ed => exact ⟨(selectCandRight_frame ed).1, (selectCandRight_frame ed).2.1⟩
  | cycleRight ed =>
    exact ⟨(next_frame ed.completion true).1, (next_frame ed.completion true).2.1⟩
  | list env _ width maxHeight r hl =>
    rw [List_session env c width maxHeight r hl]
    exact ⟨rfl, rfl⟩

/-- C18: `List` changes no field of the session other than `lines`; `next`,
`prev`, `selectCandLeft`, `selectCandRight` and `cycleCandRight` change no
field other than `selected`; so after any sequence of these operations the
candidate list, its order and the completer name are those of the session
the sequence started from. -/
theorem session_frame :
    (∀ (env : ListEnv) (c : completion) (width maxHeight : Int) (r : completion × buffer),
      c.List env width maxHeight = some r →
      r.1.completer = c.completer ∧ r.1.candidates = c.candidates ∧
      r.1.selected = c.selected) ∧
    (∀ (c : completion) (cycle : Bool),
      ((c.next cycle).completer = c.completer ∧ (c.next cycle).candidates = c.candidates ∧
        (c.next cycle).lines = c.lines) ∧
      ((c.prev cycle).completer = c.completer ∧ (c.prev cycle).candidates = c.candidates ∧
        (c.prev cycle).lines = c.lines)) ∧
    (∀ ed : Editor,
      ((selectCandLeft ed).completion.completer = ed.completion.completer ∧
        (selectCandLeft ed).completion.candidates = ed.completion.candidates ∧
        (selectCandLeft ed).completion.lines = ed.completion.lines) ∧
      ((selectCandRight ed).completion.completer = ed.completion.completer ∧
        (selectCandRight ed).completion.candidates = ed.completion.candidates ∧
        (selectCandRight ed).completion.lines = ed.completion.lines) ∧
      ((cycleCandRight ed).completion.completer = ed.completion.completer ∧
        (cycleCandRight ed).completion.candidates = ed.completion.candidates ∧
        (cycleCandRight ed).completion.lines = ed.completion.lines)) ∧
    (∀ c d : completion, Relation.ReflTransGen SessionStep c d →
      d.completer = c.completer ∧ d.candidates = c.candidates) := by
  refine ⟨?_, ?_, ?_, ?_⟩
  · intro env c width maxHeight r hl
    rw [List_session env c width maxHeight r hl]
    exact ⟨rfl, rfl, rfl⟩
  · intro c cycle
    exact ⟨next_frame c cycle, prev_frame c cycle⟩
  · intro ed
    exact ⟨selectCandLeft_frame ed, selectCandRight_frame ed, next_frame ed.completion true⟩
  · intro c d h
    induction h with
    | refl => exact ⟨rfl, rfl⟩
    | tail _ hstep ih =>
      obtain ⟨e1, e2⟩ := sessionStep_frame _ _ hstep
      exact ⟨e1.trans ih.1, e2.trans ih.2⟩

/-- C18 at the picker scenario: the redraw of width 80 returns, and the
session it leaves has the same completer, candidates and selected index. -/
theorem session_frame_witness :
    (pickerScenario.completion.List plainEnv 80 10).isSome = true ∧
    ∀ r, pickerScenario.completion.List plainEnv 80 10 = some r →
      r.1.completer = pickerScenario.completion.completer ∧
      r.1.candidates = pickerScenario.completion.candidates ∧
      r.1.selected = pickerScenario.completion.selected :=
  ⟨by decide, fun r h => session_frame.1 plainEnv pickerScenario.completion 80 10 r h⟩

/-! ## C19: column navigation and the layout -/

theorem tmod_tdiv_add_lines (s l : Int) (hs : 0 ≤ s) (hl : 1 ≤ l) :
    Int.tmod (s + l) l = Int.tmod s l ∧ Int.tdiv (s + l) l = Int.tdiv s l + 1 := by
  rw [Int.tmod_eq_emod (by omega) (by omega), Int.tmod_eq_emod hs (by omega),
    Int.tdiv_eq_ediv (by omega) (by omega), Int.tdiv_eq_ediv hs (by omega)]
  refine ⟨Int.add_emod_self, ?_⟩
  have h := Int.add_mul_ediv_right s 1 (show l ≠ 0 by omega)
  rw [one_mul] at h
  exact h

/-- C19: in a session with `lines >= 1` and `selected` in `[0, n)`, where
`selected + lines` does not exceed `math.MaxInt64` (as for the row count
that `List` stores, which is at most `n`), when `selectCandRight` changes
the selection the new index is in the same row
(`new % lines = old % lines`) and in the next column
(`new / lines = old / lines + 1`); when `selectCandLeft` changes it the new
index is in the same row and in the previous column; a `selectCandRight`
that moved, followed by `selectCandLeft`, gives back the editor it started
from.  With `lines = 0` and `selected` a 64-bit value both commands leave
the editor unchanged. -/
theorem column_navigation :
    (∀ ed : Editor, 1 ≤ ed.completion.lines → 0 ≤ ed.completion.selected →
      ed.completion.selected < (ed.completion.candidates.length : Int) →
      ed.completion.selected + ed.completion.lines ≤ maxInt →
      ((selectCandRight ed).completion.selected ≠ ed.completion.selected →
        Int.tmod (selectCandRight ed).completion.selected ed.completion.lines
            = Int.tmod ed.completion.selected ed.completion.lines ∧
          Int.tdiv (selectCandRight ed).completion.selected ed.completion.lines
            = Int.tdiv ed.completion.selected ed.completion.lines + 1 ∧
          selectCandLeft (selectCandRight ed) = ed) ∧
      ((selectCandLeft ed).completion.selected ≠ ed.completion.selected →
        Int.tmod (selectCandLeft ed).completion.selected ed.completion.lines
            = Int.tmod ed.completion.selected ed.completion.lines ∧
          Int.tdiv (selectCandLeft ed).completion.selected ed.completion.lines
            = Int.tdiv ed.completion.selected ed.completion.lines - 1)) ∧
    (∀ ed : Editor, ed.completion.lines = 0 →
      minInt ≤ ed.completion.selected → ed.completion.selected ≤ maxInt →
      selectCandRight ed = ed ∧ selectCandLeft ed = ed) := by
  constructor
  · intro ed hl h0 h1 hmax
    have eR : wrapInt (ed.completion.selected + ed.completion.lines)
        = ed.completion.selected + ed.completion.lines :=
      wrapInt_eq _ (by unfold minInt; omega) hmax
    have eL : wrapInt (ed.completion.selected - ed.completion.lines)
        = ed.completion.selected - ed.completion.lines :=
      wrapInt_eq _ (by unfold minInt; unfold maxInt at hmax; omega)
        (by unfold maxInt at hmax ⊢; omega)
    have eS : wrapInt ed.completion.selected = ed.completion.selected :=
      wrapInt_eq _ (by unfold minInt; omega) (by unfold maxInt at hmax ⊢; omega)
    constructor
    · intro hchg
      by_cases hc : ed.completion.selected + ed.completion.lines
          < (ed.completion.candidates.length : Int)
      · have e : selectCandRight ed
            = { ed with completion :=
                  { ed.completion with
                    selected := ed.completion.selected + ed.completion.lines } } := by
          simp only [selectCandRight, eR, hc, if_true]
        rw [e]
        simp only
        obtain ⟨m, d⟩ := tmod_tdiv_add_lines ed.completion.selected ed.completion.lines h0 hl
        refine ⟨m, d, ?_⟩
        have hsub : ed.completion.selected + ed.completion.lines - ed.completion.lines
            = ed.completion.selected := by omega
        unfold selectCandLeft
        simp only [hsub, eS]
        rw [if_pos (show ed.completion.selected ≥ 0 from h0)]
      · exact absurd (by simp only [selectCandRight, eR, hc, if_false]) hchg
    · intro hchg
      by_cases hc : ed.completion.selected - ed.completion.lines ≥ 0
      · have e : selectCandLeft ed
            = { ed with completion :=
                  { ed.completion with
                    selected := ed.completion.selected - ed.completion.lines } } := by
          simp only [selectCandLeft, eL, hc, if_true]
        rw [e]
        simp only
        obtain ⟨m, d⟩ := tmod_tdiv_add_lines
          (ed.completion.selected - ed.completion.lines) ed.completion.lines hc hl
        rw [sub_add_cancel] at m d
        exact ⟨m.symm, by omega⟩
      · exact absurd (by simp only [selectCandLeft, eL, hc, if_false]) hchg
  · intro ed hz hmin hmax
    have eS : wrapInt ed.completion.selected = ed.completion.selected :=
      wrapInt_eq _ hmin hmax
    constructor
    · have e : ed.completion.selected + ed.completion.lines = ed.completion.selected := by
        omega
      unfold selectCandRight
      simp only [e, eS]
      split_ifs <;> rfl
    · have e : ed.completion.selected - ed.completion.lines = ed.completion.selected := by
        omega
      unfold selectCandLeft
      simp only [e, eS]
      split_ifs <;> rfl

/-- C19 at a session of five candidates drawn in three rows with index 1
selected: `selectCandRight` moves to index 4, same row, next column, and
`selectCandLeft` moves back. -/
theorem column_navigation_witness :
    (selectCandRight
      { pickerScenario with completion :=
          { completer := ascii "path",
            candidates := List.replicate 5 (textCandidate (ascii "foo")),
            selected := 1, lines := 3 } }).completion.selected = 4 ∧
    selectCandLeft (selectCandRight
      { pickerScenario with completion :=
          { completer := ascii "path",
            candidates := List.replicate 5 (textCandidate (ascii "foo")),
            selected := 1, lines := 3 } })
      = { pickerScenario with completion :=
          { completer := ascii "path",
            candidates := List.replicate 5 (textCandidate (ascii "foo")),
            selected := 1, lines := 3 } } :=
  ⟨by decide,
   ((column_navigation.1
      { pickerScenario with completion :=
          { completer := ascii "path",
            candidates := List.replicate 5 (textCandidate (ascii "foo")),
            selected := 1, lines := 3 } }
      (by decide) (by decide) (by decide) (by decide)).1 (by decide)).2.2⟩

/-! ## The layout arithmetic of `List` -/

theorem CeilDiv_bounds (a b : Int) (hb : 1 ≤ b) :
    a ≤ CeilDiv a b * b ∧ (CeilDiv a b - 1) * b < a := by
  unfold CeilDiv
  rw [Int.fdiv_eq_ediv _ (by omega)]
  have h1 := Int.emod_add_ediv (-a) b
  have h2 := Int.emod_nonneg (-a) (show b ≠ 0 by omega)
  have h3 := Int.emod_lt_of_pos (-a) (show 0 < b by omega)
  generalize -a / b = q at *
  generalize -a % b = r at *
  constructor <;> nlinarith

theorem CeilDiv_pos (a b : Int) (ha : 1 ≤ a) (hb : 1 ≤ b) : 1 ≤ CeilDiv a b := by
  have h := (CeilDiv_bounds a b hb).1
  by_contra hc
  have : CeilDiv a b ≤ 0 := by omega
  nlinarith

theorem listCols_eq_max (width colWidth : Int) (hw : 0 ≤ width) (hc : 0 ≤ colWidth) :
    listCols width colWidth = max 1 (Int.tdiv (width + 2) (colWidth + 2)) := by
  have h : 0 ≤ Int.tdiv (width + 2) (colWidth + 2) :=
    Int.tdiv_nonneg (by omega) (by omega)
  unfold listCols completionListingColMargin
  simp only
  split_ifs with h0
  · rw [h0]; rfl
  · rw [max_eq_right (by omega)]

theorem listRowReads_range (n cols lines i : Int) (hl : 0 ≤ lines) (hi : 0 ≤ i) :
    ∀ (fuel : Nat) (j : Int), 0 ≤ j →
      ∀ k ∈ listRowReads n cols lines i fuel j, 0 ≤ k ∧ k < n := by
  intro fuel
  induction fuel with
  | zero => intro j _ k hk; simp [listRowReads] at hk
  | succ f ih =>
    intro j hj k hk
    unfold listRowReads at hk
    simp only at hk
    split_ifs at hk with hjc hge
    · simp at hk
    · rcases List.mem_cons.1 hk with e | hmem
      · have : 0 ≤ j * lines := mul_nonneg hj hl
        omega
      · exact ih (j + 1) (by omega) k hmem
    · simp at hk

theorem listRow_returns (env : ListEnv) (comp : completion) (colWidth cols lines i : Int)
    (hl : 0 ≤ lines) (hi : 0 ≤ i) :
    ∀ (fuel : Nat) (j : Int), 0 ≤ j →
      ∃ ops, listRow env comp colWidth cols lines i fuel j = some ops := by
  intro fuel
  induction fuel with
  | zero => intro j _; exact ⟨[], rfl⟩
  | succ f ih =>
    intro j hj
    obtain ⟨rest, hrest⟩ := ih (j + 1) (by omega)
    by_cases hjc : j < cols
    · by_cases hk : j * lines + i ≥ (comp.candidates.length : Int)
      · exact ⟨[], by simp only [listRow, hjc, hk, if_true]⟩
      · have hk0 : 0 ≤ j * lines + i := by
          have : 0 ≤ j * lines := mul_nonneg hj hl
          omega
        have hlt : (j * lines + i).toNat < comp.candidates.length := by omega
        simp only [listRow, hjc, hk, if_true, if_false, List.getElem?_eq_getElem hlt, hk0,
          decide_True, hrest]
        exact ⟨_, rfl⟩
    · exact ⟨[], by simp only [listRow, hjc, if_false]⟩

theorem listRows_returns (env : ListEnv) (comp : completion)
    (colWidth cols lines low high : Int) (hl : 0 ≤ lines) :
    ∀ (fuel : Nat) (i : Int), 0 ≤ i →
      ∃ ops, listRows env comp colWidth cols lines low high fuel i = some ops := by
  intro fuel
  induction fuel with
  | zero => intro i _; exact ⟨[], rfl⟩
  | succ f ih =>
    intro i hi
    obtain ⟨rest, hrest⟩ := ih (i + 1) (by omega)
    obtain ⟨row, hrow⟩ := listRow_returns env comp colWidth cols lines i hl hi cols.toNat 0
      (le_refl 0)
    by_cases hih : i < high
    · simp only [listRows, hih, if_true, hrow, hrest]
      exact ⟨_, rfl⟩
    · exact ⟨[], by simp only [listRows, hih, if_false]⟩

theorem List_returns (env : ListEnv) (comp : completion) (width maxHeight : Int)
    (hne : comp.candidates ≠ []) (h0 : 0 ≤ comp.selected) (hw : 0 ≤ width)
    (hwin : WindowLowNonneg env) :
    ∃ r, comp.List env width maxHeight = some r := by
  have hn : 1 ≤ (comp.candidates.length : Int) := by
    have := List.length_pos.2 hne
    omega
  have hcols := listCols_pos width (listColWidth env comp.candidates) hw
    (listColWidth_nonneg env comp.candidates)
  have hlines := CeilDiv_pos _ _ hn hcols
  have hlow := hwin _ _ maxHeight hlines (Int.tmod_nonneg _ h0)
    (Int.tmod_lt_of_pos _ (by omega))
  obtain ⟨ops, hops⟩ := listRows_returns env
    { comp with lines := (CeilDiv comp.candidates.length
        (listCols width (listColWidth env comp.candidates))) }
    (listColWidth env comp.candidates) (listCols width (listColWidth env comp.candidates))
    (CeilDiv comp.candidates.length (listCols width (listColWidth env comp.candidates)))
    (env.findWindow (CeilDiv comp.candidates.length
        (listCols width (listColWidth env comp.candidates)))
      (Int.tmod comp.selected (CeilDiv comp.candidates.length
        (listCols width (listColWidth env comp.candidates)))) maxHeight).1
    (env.findWindow (CeilDiv comp.candidates.length
        (listCols width (listColWidth env comp.candidates)))
      (Int.tmod comp.selected (CeilDiv comp.candidates.length
        (listCols width (listColWidth env comp.candidates)))) maxHeight).2
    (by omega) _ _ hlow
  unfold completion.List
  simp only [newBuffer]
  rw [if_neg (by omega)]
  rw [hops]
  exact ⟨_, rfl⟩

theorem listReads_range (n cols lines high : Int) (hl : 0 ≤ lines) :
    ∀ (fuel : Nat) (i : Int), 0 ≤ i →
      ∀ k ∈ listReads n cols lines high fuel i, 0 ≤ k ∧ k < n := by
  intro fuel
  induction fuel with
  | zero => intro i _ k hk; simp [listReads] at hk
  | succ f ih =>
    intro i hi k hk
    unfold listReads at hk
    split_ifs at hk with hih
    · rcases List.mem_append.1 hk with h | h
      · exact listRowReads_range n cols lines i hl hi _ 0 (le_refl 0) k h
      · exact ih (i + 1) (by omega) k h
    · simp at hk

theorem List_lines (env : ListEnv) (comp : completion) (width maxHeight : Int)
    (r : completion × buffer) (h : comp.List env width maxHeight = some r) :
    r.1.lines = listLinesOf env comp width := by
  rw [List_session env comp width maxHeight r h]
  rfl

theorem listColsOf_pos (env : ListEnv) (comp : completion) (width : Int) (hw : 0 ≤ width) :
    1 ≤ listColsOf env comp width :=
  listCols_pos width _ hw (listColWidth_nonneg env comp.candidates)

theorem listLinesOf_pos (env : ListEnv) (comp : completion) (width : Int)
    (hne : comp.candidates ≠ []) (hw : 0 ≤ width) : 1 ≤ listLinesOf env comp width := by
  have hn : 1 ≤ (comp.candidates.length : Int) := by
    have := List.length_pos.2 hne
    omega
  exact CeilDiv_pos _ _ hn (listColsOf_pos env comp width hw)

/-- C13: for a session with a non-empty candidate list and `selected >= 0`,
every `width >= 0` and every `maxHeight`, with a `findWindow` whose first
row is not negative, `List` returns (no fault).  The divisor
`colWidth + margin` is at least 2; `cols = max(1, (width+2) / (colWidth+2))`
is at least 1; `lines = CeilDiv(n, cols)` is at least 1, so
`selected % lines` is defined and lies in `[0, lines)`; and every index `k`
at which the loops over the window read `cands[k]` satisfies `0 <= k < n`. -/
theorem List_no_fault (env : ListEnv) (comp : completion) (width maxHeight : Int)
    (hne : comp.candidates ≠ []) (h0 : 0 ≤ comp.selected) (hw : 0 ≤ width)
    (hwin : WindowLowNonneg env) :
    (∃ r, comp.List env width maxHeight = some r) ∧
    2 ≤ listColWidth env comp.candidates + completionListingColMargin ∧
    listColsOf env comp width
      = max 1 (Int.tdiv (width + 2) (listColWidth env comp.candidates + 2)) ∧
    1 ≤ listColsOf env comp width ∧
    1 ≤ listLinesOf env comp width ∧
    0 ≤ Int.tmod comp.selected (listLinesOf env comp width) ∧
    Int.tmod comp.selected (listLinesOf env comp width) < listLinesOf env comp width ∧
    (∀ k ∈ listReads comp.candidates.length (listColsOf env comp width)
          (listLinesOf env comp width) (listWindowOf env comp width maxHeight).2
          ((listWindowOf env comp width maxHeight).2
            - (listWindowOf env comp width maxHeight).1).toNat
          (listWindowOf env comp width maxHeight).1,
      0 ≤ k ∧ k < (comp.candidates.length : Int)) := by
  have hcw := listColWidth_nonneg env comp.candidates
  have hlines := listLinesOf_pos env comp width hne hw
  have hm0 := Int.tmod_nonneg (listLinesOf env comp width) h0
  have hm1 := Int.tmod_lt_of_pos comp.selected (show 0 < listLinesOf env comp width by omega)
  refine ⟨List_returns env comp width maxHeight hne h0 hw hwin, ?_,
    listCols_eq_max width _ hw hcw, listColsOf_pos env comp width hw, hlines, hm0, hm1, ?_⟩
  · unfold completionListingColMargin
    omega
  · exact listReads_range _ _ _ _ (by omega) _ _ (hwin _ _ maxHeight hlines hm0 hm1)

/-- C13 at five candidates of width 3 drawn at width 8: `List` returns,
with 2 columns and 3 rows, and reads the indices 0, 3, 1, 4, 2. -/
theorem List_no_fault_witness :
    (∃ r, fiveCandidates.List plainEnv 8 10 = some r) ∧
    listColsOf plainEnv fiveCandidates 8 = 2 ∧
    listLinesOf plainEnv fiveCandidates 8 = 3 ∧
    listReads 5 2 3 3 3 0 = [0, 3, 1, 4, 2] :=
  ⟨(List_no_fault plainEnv fiveCandidates 8 10 (by decide) (by decide) (by decide)
      (fun _ _ _ _ _ _ => le_refl 0)).1,
   by decide, by decide, by decide⟩

/-- Modelled from the spec: C14, with `CeilDiv` taken as ceiling division.
For a non-empty candidate list of size `n` and `width >= 0`, the `lines`
field of the session that `List` returns is `CeilDiv(n, cols)` and it is the
exact ceiling of `n / cols`: `lines * cols >= n` and
`(lines - 1) * cols < n`; and `List` does return such a session when
`selected >= 0` and the first row given by `findWindow` is not negative. -/
theorem List_lines_ceiling (env : ListEnv) (comp : completion) (width maxHeight : Int)
    (hne : comp.candidates ≠ []) (hw : 0 ≤ width) :
    (∀ r, comp.List env width maxHeight = some r →
      r.1.lines = CeilDiv comp.candidates.length (listColsOf env comp width) ∧
      r.1.lines * listColsOf env comp width ≥ (comp.candidates.length : Int) ∧
      (r.1.lines - 1) * listColsOf env comp width < (comp.candidates.length : Int)) ∧
    (0 ≤ comp.selected → WindowLowNonneg env →
      ∃ r, comp.List env width maxHeight = some r) := by
  constructor
  · intro r hr
    have e := List_lines env comp width maxHeight r hr
    have hb := CeilDiv_bounds comp.candidates.length (listColsOf env comp width)
      (listColsOf_pos env comp width hw)
    rw [e]
    exact ⟨rfl, hb.1, hb.2⟩
  · intro h0 hwin
    exact List_returns env comp width maxHeight hne h0 hw hwin

/-- C14 at five candidates of width 3 drawn at width 8: two columns, and
the stored row count is 3, with `3 * 2 >= 5` and `2 * 2 < 5`. -/
theorem List_lines_ceiling_witness :
    (fiveCandidates.List plainEnv 8 10).map (fun r => r.1.lines) = some 3 ∧
    listColsOf plainEnv fiveCandidates 8 = 2 ∧
    (∀ r, fiveCandidates.List plainEnv 8 10 = some r →
      r.1.lines = CeilDiv fiveCandidates.candidates.length
          (listColsOf plainEnv fiveCandidates 8) ∧
      r.1.lines * listColsOf plainEnv fiveCandidates 8
        ≥ (fiveCandidates.candidates.length : Int) ∧
      (r.1.lines - 1) * listColsOf plainEnv fiveCandidates 8
        < (fiveCandidates.candidates.length : Int)) :=
  ⟨by decide, by decide,
   (List_lines_ceiling plainEnv fiveCandidates 8 10 (by decide) (by decide)).1⟩

/-- Modelled from the spec: C16 as stated fails, with `CeilDiv` taken as
ceiling division.  The picker scenario (two candidates of width 3) drawn at
width 80 has `columnCount = 16` and `rowCount = 1`, and
`rowCount * columnCount - rowCount = 15` is not below
`candidateCount + rowCount = 3`; so the two inequalities do not hold for
every non-empty list and every `width >= 0`. -/
theorem List_rows_columns_not_tight :
    (pickerScenario.completion.List plainEnv 80 10).map
        (fun r => (r.1.lines, listColsOf plainEnv pickerScenario.completion 80,
          decide (r.1.lines * listColsOf plainEnv pickerScenario.completion 80 - r.1.lines
            < (pickerScenario.completion.candidates.length : Int) + r.1.lines)))
      = some (1, 16, false) ∧
    ¬ (∀ (env : ListEnv) (comp : completion) (width maxHeight : Int)
        (r : completion × buffer), comp.candidates ≠ [] → 0 ≤ width →
        comp.List env width maxHeight = some r →
        r.1.lines * listColsOf env comp width ≥ (comp.candidates.length : Int) ∧
        r.1.lines * listColsOf env comp width - r.1.lines
          < (comp.candidates.length : Int) + r.1.lines) := by
  refine ⟨by decide, fun h => ?_⟩
  cases hr : pickerScenario.completion.List plainEnv 80 10 with
  | none => exact absurd hr (by decide)
  | some r =>
    have h2 := (h plainEnv pickerScenario.completion 80 10 r (by decide) (by decide) hr).2
    rw [List_lines plainEnv pickerScenario.completion 80 10 r hr] at h2
    revert h2
    decide

/-- Modelled from the spec: C16 amended, with `CeilDiv` taken as ceiling
division.  For a non-empty candidate list, `selected >= 0`, `width >= 0` and
a `findWindow` whose first row is not negative, `List` returns a session
whose row count and the column count satisfy
`rowCount * columnCount >= candidateCount` and
`rowCount * columnCount - columnCount < candidateCount`. -/
theorem List_rows_columns_tight (env : ListEnv) (comp : completion)
    (width maxHeight : Int) (hne : comp.candidates ≠ []) (h0 : 0 ≤ comp.selected)
    (hw : 0 ≤ width) (hwin : WindowLowNonneg env) :
    ∃ r, comp.List env width maxHeight = some r ∧
      1 ≤ listColsOf env comp width ∧
      r.1.lines * listColsOf env comp width ≥ (comp.candidates.length : Int) ∧
      r.1.lines * listColsOf env comp width - listColsOf env comp width
        < (comp.candidates.length : Int) := by
  obtain ⟨r, hr⟩ := List_returns env comp width maxHeight hne h0 hw hwin
  have hc := listColsOf_pos env comp width hw
  have hb := CeilDiv_bounds comp.candidates.length (listColsOf env comp width) hc
  refine ⟨r, hr, hc, ?_, ?_⟩
  · rw [List_lines env comp width maxHeight r hr]
    exact hb.1
  · rw [List_lines env comp width maxHeight r hr]
    have := hb.2
    unfold listLinesOf
    linarith

/-- C16 amended, at the picker scenario drawn at width 80: one row of 16
columns, `1 * 16 >= 2` and `1 * 16 - 16 < 2`. -/
theorem List_rows_columns_tight_witness :
    pickerScenario.completion.candidates ≠ [] ∧ WindowLowNonneg plainEnv ∧
    ∃ r, pickerScenario.completion.List plainEnv 80 10 = some r ∧
      1 ≤ listColsOf plainEnv pickerScenario.completion 80 ∧
      r.1.lines * listColsOf plainEnv pickerScenario.completion 80
        ≥ (pickerScenario.completion.candidates.length : Int) ∧
      r.1.lines * listColsOf plainEnv pickerScenario.completion 80
          - listColsOf plainEnv pickerScenario.completion 80
        < (pickerScenario.completion.candidates.length : Int) :=
  ⟨by decide, fun _ _ _ _ _ _ => le_refl 0,
   List_rows_columns_tight plainEnv pickerScenario.completion 80 10 (by decide) (by decide)
     (by decide) (fun _ _ _ _ _ _ => le_refl 0)⟩

/-! ## C15: the column-major layout -/

theorem row_index_emod (lines j i : Int) (hi : 0 ≤ i) (hil : i < lines) :
    (j * lines + i) % lines = i ∧ (j * lines + i) / lines = j := by
  constructor
  · rw [add_comm, Int.add_mul_emod_self]
    exact Int.emod_eq_of_lt hi hil
  · rw [add_comm, Int.add_mul_ediv_right _ _ (by omega), Int.ediv_eq_zero_of_lt hi hil]
    omega

theorem listRowReads_mem (n cols lines i : Int) (hl : 0 ≤ lines) :
    ∀ (fuel : Nat) (j k : Int), k ∈ listRowReads n cols lines i fuel j ↔
      ∃ c, j ≤ c ∧ c < cols ∧ c < j + (fuel : Int) ∧ k = c * lines + i ∧ k < n := by
  intro fuel
  induction fuel with
  | zero =>
    intro j k
    simp only [listRowReads, List.not_mem_nil, false_iff]
    rintro ⟨c, h1, _, h3, _⟩
    simp at h3
    omega
  | succ f ih =>
    intro j k
    unfold listRowReads
    simp only
    split_ifs with hjc hge
    · simp only [List.not_mem_nil, false_iff]
      rintro ⟨c, h1, _, _, h4, h5⟩
      have : j * lines ≤ c * lines := mul_le_mul_of_nonneg_right h1 hl
      omega
    · rw [List.mem_cons, ih (j + 1) k]
      constructor
      · rintro (e | ⟨c, h1, h2, h3, h4, h5⟩)
        · exact ⟨j, le_refl j, hjc, by push_cast; omega, e, by omega⟩
        · exact ⟨c, by omega, h2, by push_cast; omega, h4, h5⟩
      · rintro ⟨c, h1, h2, h3, h4, h5⟩
        by_cases hj : c = j
        · left
          rw [h4, hj]
        · right
          exact ⟨c, by omega, h2, by push_cast at h3; omega, h4, h5⟩
    · simp only [List.not_mem_nil, false_iff]
      rintro ⟨c, h1, h2, _⟩
      omega

theorem listRowReads_nodup (n cols lines i : Int) (hl : 1 ≤ lines) :
    ∀ (fuel : Nat) (j : Int), (listRowReads n cols lines i fuel j).Nodup := by
  intro fuel
  induction fuel with
  | zero => intro j; simp [listRowReads]
  | succ f ih =>
    intro j
    unfold listRowReads
    simp only
    split_ifs with hjc hge
    · exact List.nodup_nil
    · rw [List.nodup_cons]
      refine ⟨fun hmem => ?_, ih (j + 1)⟩
      rw [listRowReads_mem n cols lines i (by omega)] at hmem
      obtain ⟨c, h1, _, _, h4, _⟩ := hmem
      have h6 : (j + 1) * lines ≤ c * lines := mul_le_mul_of_nonneg_right h1 (by omega)
      have h7 : (j + 1) * lines = j * lines + lines := by ring
      omega
    · exact List.nodup_nil

theorem listReads_mem (n cols lines high : Int) :
    ∀ (fuel : Nat) (i k : Int), k ∈ listReads n cols lines high fuel i ↔
      ∃ r, i ≤ r ∧ r < high ∧ r < i + (fuel : Int) ∧
        k ∈ listRowReads n cols lines r cols.toNat 0 := by
  intro fuel
  induction fuel with
  | zero =>
    intro i k
    simp only [listReads, List.not_mem_nil, false_iff]
    rintro ⟨r, h1, _, h3, _⟩
    simp at h3
    omega
  | succ f ih =>
    intro i k
    unfold listReads
    split_ifs with hih
    · rw [List.mem_append, ih (i + 1) k]
      constructor
      · rintro (e | ⟨r, h1, h2, h3, h4⟩)
        · exact ⟨i, le_refl i, hih, by push_cast; omega, e⟩
        · exact ⟨r, by omega, h2, by push_cast; omega, h4⟩
      · rintro ⟨r, h1, h2, h3, h4⟩
        by_cases hr : r = i
        · left
          rw [← hr]
          exact h4
        · right
          exact ⟨r, by omega, h2, by push_cast at h3; omega, h4⟩
    · simp only [List.not_mem_nil, false_iff]
      rintro ⟨r, h1, h2, _⟩
      omega

theorem listReads_nodup (n cols lines high : Int) (hl : 1 ≤ lines) (hh : high ≤ lines) :
    ∀ (fuel : Nat) (i : Int), 0 ≤ i → (listReads n cols lines high fuel i).Nodup := by
  intro fuel
  induction fuel with
  | zero => intro i _; simp [listReads]
  | succ f ih =>
    intro i hi
    unfold listReads
    split_ifs with hih
    · rw [List.nodup_append]
      refine ⟨listRowReads_nodup n cols lines i hl _ _, ih (i + 1) (by omega), ?_⟩
      intro k h1 h2
      rw [listRowReads_mem n cols lines i (by omega)] at h1
      rw [listReads_mem] at h2
      obtain ⟨c1, _, _, _, e1, _⟩ := h1
      obtain ⟨r, hr1, hr2, _, hrow⟩ := h2
      rw [listRowReads_mem n cols lines r (by omega)] at hrow
      obtain ⟨c2, _, _, _, e2, _⟩ := hrow
      have m1 := (row_index_emod lines c1 i hi (by omega)).1
      have m2 := (row_index_emod lines c2 r (by omega) (by omega)).1
      rw [← e1] at m1
      rw [← e2] at m2
      omega
    · exact List.nodup_nil

theorem listReads_full (n cols lines : Int) (hl : 1 ≤ lines) (hc : n ≤ lines * cols)
    (k : Int) :
    k ∈ listReads n cols lines lines lines.toNat 0 ↔ 0 ≤ k ∧ k < n := by
  constructor
  · exact listReads_range n cols lines lines (by omega) _ 0 (le_refl 0) k
  · rintro ⟨h0, h1⟩
    have hm0 := Int.emod_nonneg k (show lines ≠ 0 by omega)
    have hm1 := Int.emod_lt_of_pos k (show 0 < lines by omega)
    have hd := Int.emod_add_ediv k lines
    have hq0 : 0 ≤ k / lines := Int.ediv_nonneg h0 (by omega)
    have hq1 : k / lines < cols := by
      by_contra hge
      have : lines * cols ≤ lines * (k / lines) :=
        mul_le_mul_of_nonneg_left (by omega) (by omega)
      omega
    rw [listReads_mem]
    refine ⟨k % lines, hm0, hm1, by rw [Int.toNat_of_nonneg (by omega)]; omega, ?_⟩
    rw [listRowReads_mem n cols lines _ (by omega)]
    refine ⟨k / lines, hq0, hq1, by rw [Int.toNat_of_nonneg (by omega)]; omega, ?_, h1⟩
    rw [mul_comm]
    omega

theorem written_append (a b : List bufferOp) : written (a ++ b) = written a ++ written b := by
  induction a with
  | nil => rfl
  | cons x xs ih =>
    cases x with
    | newline => simpa [written] using ih
    | writePadding w st => simpa [written] using ih
    | writes t st => simp [written, ih]

/-- The cells that the inner loop of `List` writes are those of the indices
in `listRowReads`, in the same order. -/
theorem listRow_written (env : ListEnv) (comp : completion) (colWidth cols lines i : Int)
    (hl : 0 ≤ lines) (hi : 0 ≤ i) :
    ∀ (fuel : Nat) (j : Int), 0 ≤ j →
      (listRow env comp colWidth cols lines i fuel j).map (fun ops => (written ops).map some)
        = some ((listRowReads comp.candidates.length cols lines i fuel j).map
            (listCellOf env comp colWidth)) := by
  intro fuel
  induction fuel with
  | zero => intro j _; rfl
  | succ f ih =>
    intro j hj
    have ih1 := ih (j + 1) (by omega)
    obtain ⟨rest, hrest⟩ := listRow_returns env comp colWidth cols lines i hl hi f (j + 1)
      (by omega)
    rw [hrest] at ih1
    simp only [Option.map_some', Option.some.injEq] at ih1
    by_cases hjc : j < cols
    · by_cases hk : j * lines + i ≥ (comp.candidates.length : Int)
      · simp only [listRow, listRowReads, hjc, hk, if_true]
        rfl
      · have hk0 : 0 ≤ j * lines + i := by
          have : 0 ≤ j * lines := mul_nonneg hj hl
          omega
        have hlt : (j * lines + i).toNat < comp.candidates.length := by omega
        simp only [listRow, listRowReads, hjc, hk, if_true, if_false,
          List.getElem?_eq_getElem hlt, hk0, decide_True, hrest, Option.map_some',
          List.map_cons, listCellOf, ← ih1, written_append, List.map_append]
        split_ifs <;> simp [written]
    · simp only [listRow, listRowReads, hjc, if_false]
      rfl

/-- The cells that the outer loop of `List` writes are those of the indices
in `listReads`, in the same order. -/
theorem listRows_written (env : ListEnv) (comp : completion)
    (colWidth cols lines low high : Int) (hl : 0 ≤ lines) :
    ∀ (fuel : Nat) (i : Int), 0 ≤ i →
      (listRows env comp colWidth cols lines low high fuel i).map
          (fun ops => (written ops).map some)
        = some ((listReads comp.candidates.length cols lines high fuel i).map
            (listCellOf env comp colWidth)) := by
  intro fuel
  induction fuel with
  | zero => intro i _; rfl
  | succ f ih =>
    intro i hi
    have ih1 := ih (i + 1) (by omega)
    obtain ⟨rest, hrest⟩ := listRows_returns env comp colWidth cols lines low high hl f (i + 1)
      (by omega)
    rw [hrest] at ih1
    simp only [Option.map_some', Option.some.injEq] at ih1
    have hrow1 := listRow_written env comp colWidth cols lines i hl hi cols.toNat 0 (le_refl 0)
    obtain ⟨row, hrow⟩ := listRow_returns env comp colWidth cols lines i hl hi cols.toNat 0
      (le_refl 0)
    rw [hrow] at hrow1
    simp only [Option.map_some', Option.some.injEq] at hrow1
    by_cases hih : i < high
    · simp only [listRows, listReads, hih, if_true, hrow, hrest, Option.map_some',
        written_append, List.map_append, ← ih1, ← hrow1]
      split_ifs <;> simp [written]
    · simp only [listRows, listReads, hih, if_false]
      rfl

/-- When the window is the full row range, `List` returns and the cells it
writes are those of the indices in `listReads` over the rows `[0, lines)`. -/
theorem List_written (env : ListEnv) (comp : completion) (width maxHeight : Int)
    (hne : comp.candidates ≠ []) (hw : 0 ≤ width)
    (hwin : listWindowOf env comp width maxHeight = (0, listLinesOf env comp width)) :
    ∃ r, comp.List env width maxHeight = some r ∧
      (written r.2.ops).map some
        = (listReads comp.candidates.length (listColsOf env comp width)
            (listLinesOf env comp width) (listLinesOf env comp width)
            (listLinesOf env comp width).toNat 0).map
          (listCellOf env comp (listColWidth env comp.candidates)) := by
  have hlines := listLinesOf_pos env comp width hne hw
  have hrows := listRows_written env
    { comp with lines := listLinesOf env comp width }
    (listColWidth env comp.candidates) (listColsOf env comp width)
    (listLinesOf env comp width) 0 (listLinesOf env comp width) (by omega)
    (listLinesOf env comp width).toNat 0 (le_refl 0)
  obtain ⟨ops, hops⟩ := listRows_returns env
    { comp with lines := listLinesOf env comp width }
    (listColWidth env comp.candidates) (listColsOf env comp width)
    (listLinesOf env comp width) 0 (listLinesOf env comp width) (by omega)
    (listLinesOf env comp width).toNat 0 (le_refl 0)
  rw [hops] at hrows
  simp only [Option.map_some', Option.some.injEq] at hrows
  have hl0 : ¬ listLinesOf env comp width = 0 := by omega
  have hwin2 : env.findWindow (listLinesOf env comp width)
      (Int.tmod comp.selected (listLinesOf env comp width)) maxHeight
      = (0, listLinesOf env comp width) := hwin
  have e : comp.List env width maxHeight
      = some ({ comp with lines := listLinesOf env comp width },
          { width := width, ops := ops }) := by
    unfold completion.List
    simp only [newBuffer]
    unfold listLinesOf listColsOf newBuffer at hl0 hwin2 hops
    simp only at hl0 hwin2 hops
    rw [if_neg hl0]
    simp only [hwin2, sub_zero, hops]
    rfl
  exact ⟨_, e, hrows⟩

theorem listReads_length (n : Nat) (cols lines : Int) (hl : 1 ≤ lines)
    (hc : (n : Int) ≤ lines * cols) :
    (listReads n cols lines lines lines.toNat 0).length = n := by
  have hnd := listReads_nodup n cols lines lines hl (le_refl _) lines.toNat 0 (le_refl 0)
  have hnd2 : ((List.range n).map (fun m : Nat => (m : Int))).Nodup :=
    (List.nodup_range n).map Nat.cast_injective
  have hp : (listReads n cols lines lines lines.toNat 0).Perm
      ((List.range n).map (fun m : Nat => (m : Int))) := by
    rw [List.perm_ext_iff_of_nodup hnd hnd2]
    intro k
    rw [listReads_full n cols lines hl hc k, List.mem_map]
    constructor
    · rintro ⟨h0, h1⟩
      exact ⟨k.toNat, List.mem_range.2 (by omega), by omega⟩
    · rintro ⟨m, hm, rfl⟩
      have := List.mem_range.1 hm
      omega
  rw [hp.length_eq, List.length_map, List.length_range]

theorem specCell_ediv (rowCount k : Int) (hr : 1 ≤ rowCount) (hk : 0 ≤ k) :
    specCell rowCount k = (k / rowCount, k % rowCount) := by
  unfold specCell
  rw [Int.tdiv_eq_ediv hk (by omega), Int.tmod_eq_emod hk (by omega)]

theorem listIndex_specCell (rowCount k : Int) (hr : 1 ≤ rowCount) (hk : 0 ≤ k) :
    listIndex rowCount (specCell rowCount k).1 (specCell rowCount k).2 = k := by
  rw [specCell_ediv rowCount k hr hk]
  unfold listIndex
  have hd := Int.emod_add_ediv k rowCount
  simp only
  rw [mul_comm]
  omega

/-- C15: the column-major mapping is a bijection.  For `rowCount >= 1` the
map `k -> (k / rowCount, k % rowCount)` sends an index `k >= 0` to a column
`>= 0` and a row in `[0, rowCount)`, `(j, i) -> j*rowCount + i` is its
inverse on both sides, and so it is injective.  With the `lines` and `cols`
that `List` computes for a non-empty list and `width >= 0`, the indices read
by the loops over the full row range `[0, lines)` contain no index twice and
are exactly the indices in `[0, n)`, each read once, in row `k % lines` and
column `k / lines < cols`.  And when the window is the full row range,
`List` returns a buffer whose `writes` calls are, in order, the cells of
these indices: `n` cells, one for each candidate. -/
theorem column_major_bijection :
    (∀ rowCount k : Int, 1 ≤ rowCount → 0 ≤ k →
      0 ≤ (specCell rowCount k).1 ∧ 0 ≤ (specCell rowCount k).2 ∧
      (specCell rowCount k).2 < rowCount ∧
      listIndex rowCount (specCell rowCount k).1 (specCell rowCount k).2 = k) ∧
    (∀ rowCount j i : Int, 1 ≤ rowCount → 0 ≤ j → 0 ≤ i → i < rowCount →
      specCell rowCount (listIndex rowCount j i) = (j, i)) ∧
    (∀ rowCount k1 k2 : Int, 1 ≤ rowCount → 0 ≤ k1 → 0 ≤ k2 →
      specCell rowCount k1 = specCell rowCount k2 → k1 = k2) ∧
    (∀ (env : ListEnv) (comp : completion) (width : Int),
      comp.candidates ≠ [] → 0 ≤ width →
      (listReads comp.candidates.length (listColsOf env comp width)
        (listLinesOf env comp width) (listLinesOf env comp width)
        (listLinesOf env comp width).toNat 0).Nodup ∧
      (∀ k : Int,
        k ∈ listReads comp.candidates.length (listColsOf env comp width)
          (listLinesOf env comp width) (listLinesOf env comp width)
          (listLinesOf env comp width).toNat 0
        ↔ 0 ≤ k ∧ k < (comp.candidates.length : Int)) ∧
      (∀ k : Int, 0 ≤ k → k < (comp.candidates.length : Int) →
        (listReads comp.candidates.length (listColsOf env comp width)
          (listLinesOf env comp width) (listLinesOf env comp width)
          (listLinesOf env comp width).toNat 0).count k = 1 ∧
        (specCell (listLinesOf env comp width) k).1 < listColsOf env comp width ∧
        k ∈ listRowReads comp.candidates.length (listColsOf env comp width)
          (listLinesOf env comp width) (specCell (listLinesOf env comp width) k).2
          (listColsOf env comp width).toNat 0)) ∧
    (∀ (env : ListEnv) (comp : completion) (width maxHeight : Int),
      comp.candidates ≠ [] → 0 ≤ width →
      listWindowOf env comp width maxHeight = (0, listLinesOf env comp width) →
      ∃ r, comp.List env width maxHeight = some r ∧
        (written r.2.ops).map some
          = (listReads comp.candidates.length (listColsOf env comp width)
              (listLinesOf env comp width) (listLinesOf env comp width)
              (listLinesOf env comp width).toNat 0).map
            (listCellOf env comp (listColWidth env comp.candidates)) ∧
        (written r.2.ops).length = comp.candidates.length) := by
  refine ⟨?_, ?_, ?_, ?_, ?_⟩
  · intro rowCount k hr hk
    refine ⟨?_, ?_, ?_, listIndex_specCell rowCount k hr hk⟩
    · rw [specCell_ediv rowCount k hr hk]
      exact Int.ediv_nonneg hk (by omega)
    · rw [specCell_ediv rowCount k hr hk]
      exact Int.emod_nonneg k (by omega)
    · rw [specCell_ediv rowCount k hr hk]
      exact Int.emod_lt_of_pos k (by omega)
  · intro rowCount j i hr hj hi hil
    have hk : 0 ≤ listIndex rowCount j i := by
      unfold listIndex
      have : 0 ≤ j * rowCount := mul_nonneg hj (by omega)
      omega
    rw [specCell_ediv rowCount _ hr hk]
    unfold listIndex
    obtain ⟨m, d⟩ := row_index_emod rowCount j i hi hil
    rw [m, d]
  · intro rowCount k1 k2 hr h1 h2 e
    rw [← listIndex_specCell rowCount k1 hr h1, ← listIndex_specCell rowCount k2 hr h2, e]
  · intro env comp width hne hw
    have hcols := listColsOf_pos env comp width hw
    have hlines := listLinesOf_pos env comp width hne hw
    have hb : (comp.candidates.length : Int)
        ≤ listLinesOf env comp width * listColsOf env comp width :=
      (CeilDiv_bounds comp.candidates.length (listColsOf env comp width) hcols).1
    have hnd := listReads_nodup comp.candidates.length (listColsOf env comp width)
      (listLinesOf env comp width) (listLinesOf env comp width) hlines (le_refl _)
      (listLinesOf env comp width).toNat 0 (le_refl 0)
    have hmem := listReads_full comp.candidates.length (listColsOf env comp width)
      (listLinesOf env comp width) hlines hb
    refine ⟨hnd, hmem, ?_⟩
    intro k h0 h1
    refine ⟨List.count_eq_one_of_mem hnd ((hmem k).2 ⟨h0, h1⟩), ?_, ?_⟩
    · rw [specCell_ediv _ k hlines h0]
      simp only
      have hd := Int.emod_add_ediv k (listLinesOf env comp width)
      have hm0 := Int.emod_nonneg k (show listLinesOf env comp width ≠ 0 by omega)
      by_contra hge
      have : listLinesOf env comp width * listColsOf env comp width
          ≤ listLinesOf env comp width * (k / listLinesOf env comp width) :=
        mul_le_mul_of_nonneg_left (by omega) (by omega)
      omega
    · have hm := (hmem k).2 ⟨h0, h1⟩
      rw [listReads_mem] at hm
      obtain ⟨r, hr0, hr1, _, hrow⟩ := hm
      have hrow2 := hrow
      rw [listRowReads_mem _ _ _ _ (by omega)] at hrow2
      obtain ⟨c, _, _, _, e, _⟩ := hrow2
      have m := (row_index_emod (listLinesOf env comp width) c r hr0 hr1).1
      rw [← e] at m
      rw [specCell_ediv _ k hlines h0]
      simp only
      rw [m]
      exact hrow
  · intro env comp width maxHeight hne hw hwin
    obtain ⟨r, hr, hcells⟩ := List_written env comp width maxHeight hne hw hwin
    refine ⟨r, hr, hcells, ?_⟩
    have hlen := congrArg List.length hcells
    rw [List.length_map, List.length_map] at hlen
    rw [hlen]
    exact listReads_length _ _ _ (listLinesOf_pos env comp width hne hw)
      (CeilDiv_bounds comp.candidates.length (listColsOf env comp width)
        (listColsOf_pos env comp width hw)).1

/-- C15 at five candidates of width 3 drawn at width 8: two columns and
three rows; index 4 is in column `4 / 3 = 1`, row `4 % 3 = 1`; the loops
read 0, 3, 1, 4, 2, and index 4 is read once.  At five candidates with the
texts `aa` to `ee` drawn at width 6, `List` writes `aa`, `dd`, `bb`, `ee`,
`cc`. -/
theorem column_major_bijection_witness :
    listColsOf plainEnv fiveCandidates 8 = 2 ∧
    listLinesOf plainEnv fiveCandidates 8 = 3 ∧
    specCell 3 4 = (1, 1) ∧
    listIndex 3 1 1 = 4 ∧
    listReads 5 2 3 3 3 0 = [0, 3, 1, 4, 2] ∧
    (listReads fiveCandidates.candidates.length (listColsOf plainEnv fiveCandidates 8)
      (listLinesOf plainEnv fiveCandidates 8) (listLinesOf plainEnv fiveCandidates 8)
      (listLinesOf plainEnv fiveCandidates 8).toNat 0).count 4 = 1 ∧
    listIndex 3 (specCell 3 4).1 (specCell 3 4).2 = 4 ∧
    (fiveDistinct.List plainEnv 6 10).map (fun r => (written r.2.ops).map Prod.fst)
      = some [ascii "aa", ascii "dd", ascii "bb", ascii "ee", ascii "cc"] ∧
    (∃ r, fiveDistinct.List plainEnv 6 10 = some r ∧
      (written r.2.ops).map some
        = (listReads fiveDistinct.candidates.length (listColsOf plainEnv fiveDistinct 6)
            (listLinesOf plainEnv fiveDistinct 6) (listLinesOf plainEnv fiveDistinct 6)
            (listLinesOf plainEnv fiveDistinct 6).toNat 0).map
          (listCellOf plainEnv fiveDistinct (listColWidth plainEnv fiveDistinct.candidates)) ∧
      (written r.2.ops).length = fiveDistinct.candidates.length) :=
  ⟨by decide, by decide, by decide, by decide, by decide,
   ((column_major_bijection.2.2.2.1 plainEnv fiveCandidates 8 (by decide) (by decide)).2.2 4
      (by decide) (by decide)).1,
   (column_major_bijection.1 3 4 (by decide) (by decide)).2.2.2,
   by decide,
   column_major_bijection.2.2.2.2 plainEnv fiveDistinct 6 10 (by decide) (by decide)
     (by decide)⟩

/-! ## C17: the folded prefix does not depend on the order -/

/-- The fold over a non-empty list of valid texts is the encoding of the
greatest sequence of code points that starts every text. -/
theorem foldPrefix_greatest (cands : List candidate) (hne : cands ≠ [])
    (hv : ∀ x ∈ cands, ValidString x.source.text = true) :
    ∃ R : List Nat, foldPrefix cands = encode R ∧
      (∀ x ∈ cands, R <+: runes x.source.text) ∧
      (∀ q : List Nat, (∀ x ∈ cands, q <+: runes x.source.text) → q <+: R) := by
  cases cands with
  | nil => exact absurd rfl hne
  | cons c cs =>
    obtain ⟨vc, ec⟩ := validString_encode c.source.text (hv c (List.mem_cons_self _ _))
    obtain ⟨R, e, _, hRA, hRcs, hgr⟩ := foldl_commonPrefix_encode cs (runes c.source.text) vc
      (fun x hx => hv x (List.mem_cons_of_mem _ hx))
    refine ⟨R, ?_, ?_, ?_⟩
    · rw [← ec] at e
      exact e
    · intro x hx
      rcases List.mem_cons.1 hx with rfl | h
      · exact hRA
      · exact hRcs x h
    · intro q hq
      exact hgr q (hq c (List.mem_cons_self _ _))
        (fun x hx => hq x (List.mem_cons_of_mem _ hx))

/-- C17: for a non-empty list of candidates with valid UTF-8 insertion
texts, the fold of `commonPrefix` from the first element gives the same
string on every permutation of the list; and `commonPrefix(s, t) =
commonPrefix(t, s)` for valid UTF-8 `s` and `t`. -/
theorem foldPrefix_order_independent :
    (∀ cands perm : List candidate, cands ≠ [] →
      (∀ x ∈ cands, ValidString x.source.text = true) → cands.Perm perm →
      foldPrefix perm = foldPrefix cands) ∧
    (∀ s t : GoString, ValidString s = true → ValidString t = true →
      commonPrefix s t = commonPrefix t s) := by
  have key : ∀ cands perm : List candidate, cands ≠ [] →
      (∀ x ∈ cands, ValidString x.source.text = true) → cands.Perm perm →
      foldPrefix perm = foldPrefix cands := by
    intro cands perm hne hv hp
    have hne2 : perm ≠ [] := fun h => hne (List.Perm.eq_nil (h ▸ hp))
    have hv2 : ∀ x ∈ perm, ValidString x.source.text = true :=
      fun x hx => hv x (hp.mem_iff.2 hx)
    obtain ⟨R, e, hR, gR⟩ := foldPrefix_greatest cands hne hv
    obtain ⟨S, e2, hS, gS⟩ := foldPrefix_greatest perm hne2 hv2
    have h1 : R <+: S := gS R (fun x hx => hR x (hp.mem_iff.2 hx))
    have h2 : S <+: R := gR S (fun x hx => hS x (hp.mem_iff.1 hx))
    have hlen : R.length = S.length := le_antisymm h1.length_le h2.length_le
    rw [e, e2, h1.eq_of_length hlen]
  refine ⟨key, ?_⟩
  intro s t hs ht
  have h := key [textCandidate s, textCandidate t] [textCandidate t, textCandidate s]
    (by simp)
    (by
      intro x hx
      rcases List.mem_cons.1 hx with rfl | hx
      · exact hs
      · rcases List.mem_cons.1 hx with rfl | hx
        · exact ht
        · simp at hx)
    (List.Perm.swap _ _ _)
  exact h.symm

/-- C17 at the texts `foo`, `fob`, `fo`: the fold gives `fo` in this order
and in the order `fo`, `foo`, `fob`. -/
theorem foldPrefix_order_independent_witness :
    foldPrefix [textCandidate (ascii "foo"), textCandidate (ascii "fob"),
      textCandidate (ascii "fo")] = ascii "fo" ∧
    foldPrefix [textCandidate (ascii "fo"), textCandidate (ascii "foo"),
        textCandidate (ascii "fob")]
      = foldPrefix [textCandidate (ascii "foo"), textCandidate (ascii "fob"),
          textCandidate (ascii "fo")] :=
  ⟨by decide,
   foldPrefix_order_independent.1
     [textCandidate (ascii "foo"), textCandidate (ascii "fob"), textCandidate (ascii "fo")]
     [textCandidate (ascii "fo"), textCandidate (ascii "foo"), textCandidate (ascii "fob")]
     (by simp) (by decide)
     (by
       show ([textCandidate (ascii "foo"), textCandidate (ascii "fob")]
           ++ [textCandidate (ascii "fo")]).Perm
         ([textCandidate (ascii "fo")]
           ++ [textCandidate (ascii "foo"), textCandidate (ascii "fob")])
       exact List.perm_append_comm)⟩

/-! ## C20: `commonPrefix` on strings that are not valid UTF-8 -/

/-- C20 fails on the code: for `s = "\xff"` (one invalid byte) and
`t = "\xef\xbf\xbd"` (the encoding of U+FFFD), both decode to `RuneError` at
offset 0, so `commonPrefix(s, t)` is `s`, which is not a byte prefix of `t`;
likewise `commonPrefix("\xffa", "\xfea") = "\xffa"`.  The fold over the two
candidates gives a text that does not start the second candidate, and the
result depends on the order of the arguments. -/
theorem commonPrefix_invalid_utf8 :
    commonPrefix [0xFF] [0xEF, 0xBF, 0xBD] = [0xFF] ∧
    ¬ (commonPrefix [0xFF] [0xEF, 0xBF, 0xBD] <+: [0xEF, 0xBF, 0xBD]) ∧
    ValidString [0xEF, 0xBF, 0xBD] = true ∧
    commonPrefix [0xFF, 0x61] [0xFE, 0x61] = [0xFF, 0x61] ∧
    ¬ (commonPrefix [0xFF, 0x61] [0xFE, 0x61] <+: [0xFE, 0x61]) ∧
    commonPrefix [0xFE, 0x61] [0xFF, 0x61] = [0xFE, 0x61] ∧
    foldPrefix [textCandidate [0xFF], textCandidate [0xEF, 0xBF, 0xBD]] = [0xFF] ∧
    ¬ (∀ s t : GoString, commonPrefix s t <+: s ∧ commonPrefix s t <+: t) := by
  refine ⟨by decide, by decide, by decide, by decide, by decide, by decide, by decide, ?_⟩
  intro h
  exact absurd (h [0xFF] [0xEF, 0xBF, 0xBD]).2 (by decide)

end Edit
